import Mathlib

/-!
Verification of the MnemonicShards shard codec, validator and recovery engine.

The JavaScript sources are shallowly embedded:

* JS binary strings / `Uint8Array`s are `List Nat` (each entry `< 256`);
* JS strings are `List Char`;
* JS values reachable by the codec are the inductive `JVal`
  (`undefined` is represented by `Option.none` at field-lookup sites);
* the platform built-ins `btoa` / `atob` are modelled by `b64encode` /
  `b64decode` (RFC 4648 with `=` padding, the canonical encodings on which
  the repository relies; `atob`'s leniency about missing padding is not
  modelled since no code path produces such input);
* `JSON.parse` is modelled by `jsonParse`, a total recursive-descent parser
  covering the object / string / integer / bool / null fragment that the
  shard codec exchanges (floats, `\u` escapes and arrays are outside the
  fragment the tokens use);
* every JS exception path is an explicit `Option.none` / error constructor.

Functions keep the names of the source functions they embed
(`src/utils/validation.js`, `src/components/ShareManager.js`,
`src/components/RecoveryTabManager.js`, `src/main.js`).
-/

namespace MnemonicShards

/-! ### Characters and whitespace -/

/-- JSON / `String.prototype.trim` whitespace (the characters relevant to the
tokens: space, tab, LF, CR). -/
def isJsonWs (c : Char) : Bool :=
  c = ' ' || c = '\t' || c = '\n' || c = '\r'

/-- Model of `String.prototype.trim`: drop whitespace from both ends. -/
def trimStr (s : List Char) : List Char :=
  ((s.dropWhile isJsonWs).reverse.dropWhile isJsonWs).reverse

/-- Decimal digit test. -/
def isDig (c : Char) : Bool :=
  '0' ≤ c && c ≤ '9'

/-! ### Base64 (model of `btoa` / `atob`) -/

/-- The base64 alphabet, index `n` holds the digit for sextet value `n`. -/
def b64Alphabet : List Char :=
  ['A','B','C','D','E','F','G','H','I','J','K','L','M','N','O','P',
   'Q','R','S','T','U','V','W','X','Y','Z',
   'a','b','c','d','e','f','g','h','i','j','k','l','m','n','o','p',
   'q','r','s','t','u','v','w','x','y','z',
   '0','1','2','3','4','5','6','7','8','9','+','/']

/-- Digit for a sextet value. -/
def b64Char (n : Nat) : Char :=
  b64Alphabet.getD n 'A'

/-- Sextet value of a base64 digit (`none` for a character outside the
alphabet, the case in which `atob` throws). -/
def b64Val (c : Char) : Option Nat :=
  b64Alphabet.findIdx? (· = c)

/-- `btoa`: encode a byte list, three bytes to four digits, `=`-padded. -/
def b64encode : List Nat → List Char
  | [] => []
  | [a] => [b64Char (a / 4), b64Char (a % 4 * 16), '=', '=']
  | [a, b] => [b64Char (a / 4), b64Char (a % 4 * 16 + b / 16), b64Char (b % 16 * 4), '=']
  | a :: b :: c :: rest =>
    b64Char (a / 4) :: b64Char (a % 4 * 16 + b / 16) ::
    b64Char (b % 16 * 4 + c / 64) :: b64Char (c % 64) :: b64encode rest

/-- Decode one full (unpadded) base64 quantum into three bytes. -/
def b64chunk (c1 c2 c3 c4 : Char) : Option (Nat × Nat × Nat) := do
  let v1 ← b64Val c1
  let v2 ← b64Val c2
  let v3 ← b64Val c3
  let v4 ← b64Val c4
  pure (v1 * 4 + v2 / 16, v2 % 16 * 16 + v3 / 4, v3 % 4 * 64 + v4)

/-- Decode the final base64 quantum, honouring `=` padding. -/
def b64quantum (c1 c2 c3 c4 : Char) : Option (List Nat) :=
  if c3 = '=' then
    if c4 = '=' then do
      let v1 ← b64Val c1
      let v2 ← b64Val c2
      pure [v1 * 4 + v2 / 16]
    else none
  else if c4 = '=' then do
    let v1 ← b64Val c1
    let v2 ← b64Val c2
    let v3 ← b64Val c3
    pure [v1 * 4 + v2 / 16, v2 % 16 * 16 + v3 / 4]
  else (b64chunk c1 c2 c3 c4).map fun t => [t.1, t.2.1, t.2.2]

/-- `atob`: decode four digits to three bytes, `=` padding legal only in the
final quantum; `none` models the `InvalidCharacterError` exception. -/
def b64decode : List Char → Option (List Nat)
  | [] => some []
  | c1 :: c2 :: c3 :: c4 :: rest =>
    if rest.isEmpty then b64quantum c1 c2 c3 c4
    else do
      let t ← b64chunk c1 c2 c3 c4
      let tail ← b64decode rest
      pure (t.1 :: t.2.1 :: t.2.2 :: tail)
  | _ => none

/-! ### JS values (the fragment reachable through the shard codec)

Arrays, floats and `\uXXXX` escapes never occur in shard tokens and are not
part of the modelled fragment; inputs using them simply fail `jsonParse`,
which coincides with the codec-level verdict (such tokens carry no usable
`threshold` / `index` / `data` fields either way). -/

/-- A JavaScript value as seen by the shard codec.  `undefined` is represented
by `Option.none` at the sites where it can appear (field lookups). -/
inductive JVal where
  | jnull : JVal
  | jbool : Bool → JVal
  | jnum : Int → JVal
  | jstr : List Char → JVal
  | jobj : List (List Char × JVal) → JVal

/-- SameValueZero equality as used by JS `Set` on the values that reach the
sets in `validateShareCollection` (numbers, strings, booleans, `null`);
freshly parsed objects are reference-distinct, hence never equal. -/
def primEq : JVal → JVal → Bool
  | .jnull, .jnull => true
  | .jbool a, .jbool b => a == b
  | .jnum a, .jnum b => a == b
  | .jstr a, .jstr b => a == b
  | _, _ => false

/-- Property access `o[name]` on a parsed object: later duplicate keys win,
as with `JSON.parse`. -/
def getField : List (List Char × JVal) → List Char → Option JVal
  | [], _ => none
  | (k, v) :: rest, name =>
    match getField rest name with
    | some w => some w
    | none => if k = name then some v else none

/-- Field access on an arbitrary value (`undefined` on non-objects). -/
def fieldOf (v : JVal) (name : List Char) : Option JVal :=
  match v with
  | .jobj fs => getField fs name
  | _ => none

/-- JS truthiness of a possibly-`undefined` value. -/
def truthy : Option JVal → Bool
  | none => false
  | some .jnull => false
  | some (.jbool b) => b
  | some (.jnum n) => n ≠ 0
  | some (.jstr s) => !s.isEmpty
  | some (.jobj _) => true

/-! ### Decimal numerals -/

/-- Decimal digit character for `n < 10`. -/
def digitChar (n : Nat) : Char :=
  ['0','1','2','3','4','5','6','7','8','9'].getD n '0'

def natCharsAux : Nat → Nat → List Char
  | 0, _ => []
  | fuel + 1, n =>
    if n < 10 then [digitChar n]
    else natCharsAux fuel (n / 10) ++ [digitChar (n % 10)]

/-- The decimal numeral of `n`, as `JSON.stringify` prints a natural. -/
def natChars (n : Nat) : List Char := natCharsAux (n + 1) n

/-- Read a maximal run of decimal digits (accumulator style). -/
def parseNatAux : Nat → List Char → Nat × List Char
  | acc, [] => (acc, [])
  | acc, c :: rest =>
    if isDig c then parseNatAux (acc * 10 + (c.toNat - 48)) rest
    else (acc, c :: rest)

/-- `Number(string)` on the integer fragment: trimmed empty string is `0`,
optionally signed digit runs are their value, anything else is `NaN`
(`none`). -/
def strToNumber (s : List Char) : Option Int :=
  let t := trimStr s
  if t.isEmpty then some 0
  else if t.all isDig then some ((parseNatAux 0 t).1 : Int)
  else
    match t with
    | '-' :: rest =>
      if !rest.isEmpty && rest.all isDig then some (-((parseNatAux 0 rest).1 : Int))
      else none
    | _ => none

/-- JS `ToNumber` coercion on the modelled fragment (`none` is `NaN`). -/
def jsToNumber : JVal → Option Int
  | .jnull => some 0
  | .jbool b => some (if b then 1 else 0)
  | .jnum n => some n
  | .jstr s => strToNumber s
  | .jobj _ => none

/-- JS `count < threshold` with a `Nat` left operand (comparisons against
`NaN` are false). -/
def jsLtNat (n : Nat) (t : JVal) : Bool :=
  match jsToNumber t with
  | some m => (n : Int) < m
  | none => false

/-- JS `count >= threshold` with a `Nat` left operand. -/
def jsGeNat (n : Nat) (t : JVal) : Bool :=
  match jsToNumber t with
  | some m => m ≤ (n : Int)
  | none => false

/-! ### JSON parsing (model of `JSON.parse`) -/

/-- JSON escape characters (the `\uXXXX` form is outside the fragment). -/
def escChar (c : Char) : Option Char :=
  if c = '"' then some '"'
  else if c = '\\' then some '\\'
  else if c = '/' then some '/'
  else if c = 'n' then some '\n'
  else if c = 't' then some '\t'
  else if c = 'r' then some '\r'
  else if c = 'b' then some (Char.ofNat 8)
  else if c = 'f' then some (Char.ofNat 12)
  else none

/-- Scan a JSON string body one character at a time; `escaped` records a
pending backslash. -/
def parseStringBodyAux : Bool → List Char → Option (List Char × List Char)
  | _, [] => none
  | true, c :: rest => do
    let ec ← escChar c
    let (s, r) ← parseStringBodyAux false rest
    pure (ec :: s, r)
  | false, c :: rest =>
    if c = '"' then some ([], rest)
    else if c = '\\' then parseStringBodyAux true rest
    else do
      let (s, r) ← parseStringBodyAux false rest
      pure (c :: s, r)

/-- Parse a JSON string body after the opening quote; returns the decoded
characters and the input after the closing quote. -/
def parseStringBody (cs : List Char) : Option (List Char × List Char) :=
  parseStringBodyAux false cs

mutual

/-- Parse one JSON value (fuel-indexed recursive descent). -/
def parseVal : Nat → List Char → Option (JVal × List Char)
  | 0, _ => none
  | fuel + 1, cs =>
    match cs.dropWhile isJsonWs with
    | [] => none
    | c :: rest =>
      if isDig c then
        let (n, r) := parseNatAux 0 (c :: rest)
        some (.jnum (n : Int), r)
      else if c = '-' then
        match rest with
        | [] => none
        | d :: rest2 =>
          if isDig d then
            let (n, r) := parseNatAux 0 (d :: rest2)
            some (.jnum (-(n : Int)), r)
          else none
      else if c = '"' then
        (parseStringBody rest).map fun p => (.jstr p.1, p.2)
      else if c = '{' then
        (parseMembers fuel rest true).map fun p => (.jobj p.1, p.2)
      else if c = 't' then
        match rest with
        | 'r' :: 'u' :: 'e' :: r => some (.jbool true, r)
        | _ => none
      else if c = 'f' then
        match rest with
        | 'a' :: 'l' :: 's' :: 'e' :: r => some (.jbool false, r)
        | _ => none
      else if c = 'n' then
        match rest with
        | 'u' :: 'l' :: 'l' :: r => some (.jnull, r)
        | _ => none
      else none

/-- Parse the members of a JSON object after its `{` (or after a `,`);
`first` tells whether a closing `}` may come immediately. -/
def parseMembers : Nat → List Char → Bool → Option (List (List Char × JVal) × List Char)
  | 0, _, _ => none
  | fuel + 1, cs, first =>
    match cs.dropWhile isJsonWs with
    | '}' :: rest => if first then some ([], rest) else none
    | '"' :: rest =>
      match parseStringBody rest with
      | none => none
      | some (name, r1) =>
        match r1.dropWhile isJsonWs with
        | ':' :: r2 =>
          match parseVal fuel r2 with
          | none => none
          | some (v, r3) =>
            match r3.dropWhile isJsonWs with
            | ',' :: r4 =>
              (parseMembers fuel r4 false).map fun p => ((name, v) :: p.1, p.2)
            | '}' :: r4 => some ([(name, v)], r4)
            | _ => none
        | _ => none
    | _ => none

end

/-- `JSON.parse`: parse one value and require only whitespace after it.  The
fuel `cs.length + 6` dominates the nesting depth of any input. -/
def jsonParse (cs : List Char) : Option JVal :=
  match parseVal (cs.length + 6) cs with
  | some (v, rest) => if (rest.dropWhile isJsonWs).isEmpty then some v else none
  | none => none

/-! ### The shard token format

`ShareManager.generateShares` builds `btoa(JSON.stringify({index, threshold,
total, data}))`; `stringifyShare` is the exact `JSON.stringify` output for
that object literal (insertion order, no spaces). -/

def keyIndex : List Char := ['i','n','d','e','x']

def keyThreshold : List Char := ['t','h','r','e','s','h','o','l','d']

def keyTotal : List Char := ['t','o','t','a','l']

def keyData : List Char := ['d','a','t','a']

/-- `JSON.stringify({index: idx, threshold: thr, total: tot, data: dat})`. -/
def stringifyShare (idx thr tot : Nat) (dat : List Char) : List Char :=
  ['{','"','i','n','d','e','x','"',':'] ++ natChars idx ++
  [',','"','t','h','r','e','s','h','o','l','d','"',':'] ++ natChars thr ++
  [',','"','t','o','t','a','l','"',':'] ++ natChars tot ++
  [',','"','d','a','t','a','"',':','"'] ++ dat ++ ['"','}']

/-- The parsed form of a generated share object. -/
def shareJVal (idx thr tot : Nat) (dat : List Char) : JVal :=
  .jobj [(keyIndex, .jnum (idx : Int)), (keyThreshold, .jnum (thr : Int)),
         (keyTotal, .jnum (tot : Int)), (keyData, .jstr dat)]

/-! ### Numeral parsing lemmas -/

/-- Digit-run accumulator, the specification of `parseNatAux`'s consumption. -/
def pushDigits (acc : Nat) (ds : List Char) : Nat :=
  ds.foldl (fun a c => a * 10 + (c.toNat - 48)) acc

/-! ### The shard codec (`src/utils/validation.js`) -/

/-- A JS binary string (as returned by `atob`) viewed byte-wise. -/
def charsToBytes (s : List Char) : List Nat := s.map Char.toNat

/-- Bytes viewed as the characters of a JS binary string. -/
def bytesToChars (bs : List Nat) : List Char := bs.map Char.ofNat

/-- `JSON.parse(atob(s))` with every exception path collapsed to `none`. -/
def decodeTokenRaw (s : List Char) : Option JVal :=
  (b64decode s).bind fun bytes => jsonParse (bytesToChars bytes)

/-- `isValidShareFormat` (`validation.js:23-36`): the argument must be a
truthy string whose base64-decoded JSON carries truthy `threshold`, `index`
and `data` fields; a thrown `atob` / `JSON.parse` / property-access error
yields `false`. -/
def shareFieldsOk : Option JVal → Bool
  | some (.jobj fs) =>
    truthy (getField fs keyThreshold) && truthy (getField fs keyIndex) &&
      truthy (getField fs keyData)
  | _ => false

def isValidShareFormat : JVal → Bool
  | .jstr s => if s.isEmpty then false else shareFieldsOk (decodeTokenRaw (trimStr s))
  | _ => false

/-- `parseShareData` (`validation.js:43-55`): re-decode after the format
check, returning the parsed object or `null`. -/
def parseShareData : JVal → Option JVal
  | .jstr s =>
    if isValidShareFormat (.jstr s) then decodeTokenRaw (trimStr s) else none
  | _ => none

/-- The spec's ShardRecord; `generateShares` serializes it with field names
`index` / `threshold` / `total` / `data`. -/
structure ShardRecord where
  ordinalIndex : Nat
  threshold : Nat
  totalCount : Nat
  payload : List Nat

/-- The data-model invariant of a ShardRecord, together with the
representation constraint that payload entries are bytes. -/
def ShardRecord.Valid (r : ShardRecord) : Prop :=
  1 ≤ r.ordinalIndex ∧ 2 ≤ r.threshold ∧ r.threshold ≤ r.totalCount ∧
    ∀ x ∈ r.payload, x < 256

/-- `encode`: `btoa(JSON.stringify({index, threshold, total, data:
btoa(payload)}))` exactly as `ShareManager.generateShares` builds a token. -/
def encodeShare (r : ShardRecord) : List Char :=
  b64encode (charsToBytes
    (stringifyShare r.ordinalIndex r.threshold r.totalCount (b64encode r.payload)))

/-- Payload extraction as `ShareManager.recoverMnemonic` performs it:
`atob(shareData.data)` viewed as bytes. -/
def extractPayload (v : JVal) : Option (List Nat) :=
  match fieldOf v keyData with
  | some (.jstr d) => b64decode d
  | _ => none

/-! ### validateShareCollection (`src/utils/validation.js:99-167`)

Error strings are modelled as tags; `processValidationResult` distinguishes
them only by the duplicate-indices substring test, which the tag encodes. -/

inductive VErr where
  | invalidRow (row : Nat)
  | noValidShares
  | insufficient (need : JVal) (got : Nat)
  | duplicateIndices

/-- `Set.prototype.add` with SameValueZero semantics (insertion order kept,
as `Array.from` observes it). -/
def insertSet (s : List JVal) (v : JVal) : List JVal :=
  if s.any (fun x => primEq x v) then s else s ++ [v]

/-- The accumulator of the `shareStrings.forEach` loop. -/
structure ScanState where
  validCount : Nat
  validShareData : List JVal
  thresholdCandidates : List JVal
  shareIndices : List JVal
  errors : List VErr

/-- The index value a decoded record contributes to `shareIndices`. -/
def shareIdxVal (sd : JVal) : JVal := (fieldOf sd keyIndex).getD .jnull

/-- The `thresholdCandidates` step: add the threshold field if truthy. -/
def candStep (s : List JVal) (sd : JVal) : List JVal :=
  if truthy (fieldOf sd keyThreshold) then
    insertSet s ((fieldOf sd keyThreshold).getD .jnull)
  else s

/-- One iteration of the `forEach` over `shareStrings`. -/
def scanShare (st : ScanState) (row : Nat) (v : JVal) : ScanState :=
  match parseShareData v with
  | some sd =>
    { st with
      validCount := st.validCount + 1
      validShareData := st.validShareData ++ [sd]
      thresholdCandidates := candStep st.thresholdCandidates sd
      shareIndices := insertSet st.shareIndices (shareIdxVal sd) }
  | none => { st with errors := st.errors ++ [.invalidRow (row + 1)] }

def scanShares : ScanState → Nat → List JVal → ScanState
  | st, _, [] => st
  | st, row, v :: rest => scanShares (scanShare st row v) (row + 1) rest

/-- The most-frequent-threshold fallback (`validation.js:126-140`): counts
are taken over the already-deduplicated candidate set, so every count is 1
and the loop keeps the first-inserted candidate. -/
def pickMaxCount (cands : List JVal) : JVal :=
  let counts := fun t => (cands.filter (fun x => primEq x t)).length
  (cands.foldl (fun acc t => if counts t > acc.1 then (counts t, t) else acc)
    (0, .jnum 0)).2

/-- Threshold resolution (`validation.js:123-144`). -/
def resolveThreshold (validShareData : List JVal) (cands : List JVal) : JVal :=
  match validShareData with
  | v :: _ =>
    if truthy (fieldOf v keyThreshold) then (fieldOf v keyThreshold).getD (.jnum 0)
    else if !cands.isEmpty then pickMaxCount cands else .jnum 3
  | [] => if !cands.isEmpty then pickMaxCount cands else .jnum 3

structure ValidationResult where
  isValid : Bool
  validCount : Nat
  threshold : JVal
  errors : List VErr
  shareIndices : List JVal

/-- The scan of a whole batch from the empty accumulator. -/
def vscState (shareStrings : List JVal) : ScanState :=
  scanShares ⟨0, [], [], [], []⟩ 0 shareStrings

/-- The resolved threshold of a scanned batch. -/
def vscThreshold (st : ScanState) : JVal :=
  resolveThreshold st.validShareData st.thresholdCandidates

/-- The error list after the count and duplicate checks
(`validation.js:146-156`). -/
def vscErrors (st : ScanState) (threshold : JVal) : List VErr :=
  (st.errors ++
    (if st.validCount = 0 then [.noValidShares]
     else if jsLtNat st.validCount threshold then [.insufficient threshold st.validCount]
     else [])) ++
  (if st.shareIndices.length ≠ st.validCount then [.duplicateIndices] else [])

/-- `validateShareCollection` (`validation.js:99-167`). -/
def validateShareCollection (shareStrings : List JVal) : ValidationResult :=
  let st := vscState shareStrings
  let threshold := vscThreshold st
  let errors := vscErrors st threshold
  { isValid := errors.isEmpty && jsGeNat st.validCount threshold
    validCount := st.validCount
    threshold := threshold
    errors := errors
    shareIndices := st.shareIndices }

/-! ### Verdicts (`src/components/RecoveryTabManager.js`) -/

inductive Verdict where
  | waiting
  | invalidFormat
  | passwordRequired
  | duplicateIndices
  | insufficientShares (need : JVal) (got : Nat)
  | ready (count : Nat) (threshold : JVal)

/-- The `error.includes('检测到重复的分片索引')` test. -/
def isDupErr : VErr → Bool
  | .duplicateIndices => true
  | _ => false

/-- `processValidationResult` (`RecoveryTabManager.js:720-736`), mapping a
validation result to the user-visible verdict. -/
def processValidationResult (v : ValidationResult) : Verdict :=
  if !v.isValid then
    if v.validCount = 0 then .invalidFormat
    else if v.errors.any isDupErr then .duplicateIndices
    else .insufficientShares v.threshold v.validCount
  else .ready v.validCount v.threshold

inductive FileStatus where
  | processing
  | valid
  | invalid
  | encrypted
deriving DecidableEq

/-- An entry of `this.uploadedFiles` (the fields `validateCurrentShares`
reads). -/
structure FileEntry where
  status : FileStatus
  shareData : Option JVal

/-- `validateCurrentShares` (`RecoveryTabManager.js:346-386`), as a verdict.
Note that `allShares` collects the parsed `shareData` objects and hands them
to `validateShareCollection`, which expects token strings. -/
def validateCurrentSharesVerdict (files : List FileEntry) : Verdict :=
  let allShares := (files.filter
    (fun f => f.status = FileStatus.valid && f.shareData.isSome)).filterMap (·.shareData)
  let encryptedFiles := files.filter (fun f => f.status = FileStatus.encrypted)
  if allShares.isEmpty && encryptedFiles.isEmpty then .invalidFormat
  else if allShares.isEmpty then .passwordRequired
  else
    let v := validateShareCollection allShares
    if v.isValid then .ready v.validCount v.threshold
    else if jsLtNat v.validCount v.threshold then .insufficientShares v.threshold v.validCount
    else .invalidFormat

/-- Primitive (non-object) values, the ones `Set` compares by value. -/
def isPrimitiveB : JVal → Bool
  | .jobj _ => false
  | _ => true

/-! ### recoverMnemonic (`src/components/ShareManager.js:211-283`)

The opaque `combine` primitive is a parameter; the `TextDecoder` step is
immaterial to the claims, so the recovered secret stays a byte list. -/

/-- The inline per-line parse of `recoverMnemonic` (`ShareManager.js:239-248`):
`JSON.parse(atob(shareStr))` guarded by the three truthy fields, every thrown
error skipping the line.  The line is already trimmed by the caller. -/
def recoverParseLine (s : List Char) : Option JVal :=
  match decodeTokenRaw s with
  | some (.jobj fs) =>
    if truthy (getField fs keyThreshold) && truthy (getField fs keyIndex) &&
        truthy (getField fs keyData) then some (.jobj fs)
    else none
  | _ => none

inductive RecErrKind where
  | noValidShares
  | insufficientShares (need : JVal) (got : Nat)
  | exception

inductive RecOutcome where
  | error : RecErrKind → RecOutcome
  | recovered : List Nat → RecOutcome

/-- `Array.prototype.slice(0, t)` bound for a JS threshold value. -/
def jsSliceCount (t : JVal) : Nat :=
  match jsToNumber t with
  | some m => m.toNat
  | none => 0

/-- Payload extraction over the selected records; a failed `atob` anywhere
throws out of the whole `try` block. -/
def extractPayloads : List JVal → Option (List (List Nat))
  | [] => some []
  | v :: rest => do
    let p ← extractPayload v
    let ps ← extractPayloads rest
    pure (p :: ps)

/-- `ShareManager.recoverMnemonic` (`ShareManager.js:232-273`): split lines,
parse each, take the first record's threshold, require that many records,
combine the first `threshold` payloads.  No duplicate-index check is made
here. -/
def recoverMnemonicModel (combine : List (List Nat) → List Nat)
    (inputLines : List (List Char)) : RecOutcome :=
  match ((inputLines.map trimStr).filter (fun l => !l.isEmpty)).filterMap recoverParseLine with
  | [] => .error .noValidShares
  | first :: rest =>
    let threshold := (fieldOf first keyThreshold).getD .jnull
    if jsLtNat (first :: rest).length threshold then
      .error (.insufficientShares threshold (first :: rest).length)
    else
      match extractPayloads ((first :: rest).take (jsSliceCount threshold)) with
      | some shares => .recovered (combine shares)
      | none => .error .exception

/-! ### C5 / C10 — what decode accepts and rejects -/

/-- Build a token from JSON source text, as the generator does. -/
def mkToken (src : List Char) : List Char := b64encode (charsToBytes src)

/-- JSON source `{"threshold":2,"index":1,"data":"x","extra":true}`. -/
def srcExtraField : List Char :=
  ['{','"'] ++ keyThreshold ++ ['"',':','2',',','"'] ++ keyIndex ++
  ['"',':','1',',','"'] ++ keyData ++
  ['"',':','"','x','"',',','"','e','x','t','r','a','"',':','t','r','u','e','}']

/-- JSON source `{"threshold":"abc","index":"b","data":"c"}`. -/
def srcNonNumeric : List Char :=
  ['{','"'] ++ keyThreshold ++ ['"',':','"','a','b','c','"',',','"'] ++ keyIndex ++
  ['"',':','"','b','"',',','"'] ++ keyData ++ ['"',':','"','c','"','}']

/-- JSON source `{"threshold":2,"index":0,"data":"x"}`. -/
def srcIndexZero : List Char :=
  ['{','"'] ++ keyThreshold ++ ['"',':','2',',','"'] ++ keyIndex ++
  ['"',':','0',',','"'] ++ keyData ++ ['"',':','"','x','"','}']

/-- JSON source `{"threshold":2,"index":1,"data":""}`. -/
def srcEmptyData : List Char :=
  ['{','"'] ++ keyThreshold ++ ['"',':','2',',','"'] ++ keyIndex ++
  ['"',':','1',',','"'] ++ keyData ++ ['"',':','"','"','}']

/-! ### C9 — generation (`ShareManager.generateShares`, `validateMnemonic`,
`main.js updateThresholdOptions`) -/

inductive MnErr where
  | emptyWord
  | duplicateWords (ws : List (List Char))

/-- `word.trim().toLowerCase()`. -/
def normalizeWord (w : List Char) : List Char := (trimStr w).map Char.toLower

/-- The `words.forEach` duplicate scan of `validateMnemonic`
(`validation.js:72-80`): threads the `wordSet` and `duplicates` sets. -/
def scanWords : List (List Char) → List (List Char) → List (List Char)
    → List (List Char) × List (List Char)
  | wordSet, dups, [] => (wordSet, dups)
  | wordSet, dups, w :: rest =>
    let t := normalizeWord w
    if t ∈ wordSet then
      scanWords wordSet (if t ∈ dups then dups else dups ++ [t]) rest
    else scanWords (wordSet ++ [t]) dups rest

/-- `validateMnemonic` (`validation.js:62-92`): flags empty words and
duplicate words; `isValid` iff no error. -/
def validateMnemonic (words : List (List Char)) : Bool × List MnErr :=
  let errors1 := if words.any (fun w => (trimStr w).isEmpty) then [MnErr.emptyWord] else []
  let dups := (scanWords [] [] words).2
  let errors := errors1 ++ (if !dups.isEmpty then [MnErr.duplicateWords dups] else [])
  (errors.isEmpty, errors)

/-- `words.join(' ')`. -/
def joinWords : List (List Char) → List Char
  | [] => []
  | [w] => w
  | w :: rest => w ++ ' ' :: joinWords rest

/-- `TextEncoder.encode`: UTF-8. -/
def utf8EncodeChar (c : Char) : List Nat :=
  let n := c.toNat
  if n < 128 then [n]
  else if n < 2048 then [192 + n / 64, 128 + n % 64]
  else if n < 65536 then [224 + n / 4096, 128 + n / 64 % 64, 128 + n % 64]
  else [240 + n / 262144, 128 + n / 4096 % 64, 128 + n / 64 % 64, 128 + n % 64]

def utf8Encode (s : List Char) : List Nat := (s.map utf8EncodeChar).flatten

inductive GenResult where
  | failure : GenResult
  | success : List (List Char) → GenResult

/-- `ShareManager.generateShares` (`ShareManager.js:25-60`): validate the
words, split the UTF-8 secret with the opaque `split`, and serialize each
raw share as `{index: i+1, threshold, total, data}`.  No numeric-bound check
appears here. -/
def generateShares (split : List Nat → Nat → Nat → List (List Nat))
    (words : List (List Char)) (totalShares threshold : Nat) : GenResult :=
  if !(validateMnemonic words).1 then .failure
  else
    .success (((split (utf8Encode (joinWords words)) totalShares threshold).mapIdx
      fun index share =>
        b64encode (charsToBytes (stringifyShare (index + 1) threshold totalShares
          (b64encode share)))))

/-- `updateThresholdOptions` (`main.js:246-268`): the threshold `<select>`
offers exactly the options `2 .. totalShares`. -/
def updateThresholdOptions (totalShares : Nat) : List Nat :=
  List.range' 2 (totalShares - 1)

/-! ### C8 — interactive decryption with retry
(`ShareManager.js:874-983`, second revision, and `PasswordDialog.show`)

The password dialog is modelled as a queue of prompt responses: `submit pw`
when the user confirms a password, `cancel` when the user cancels (the
promise rejection of `PasswordDialog.handleCancel`); an exhausted queue
behaves as a cancellation.  `decrypt` is the opaque
`decryptWithPassword`, classified by the wrong-password message test
(`e.message.includes` at `ShareManager.js:920` / `932`). -/

inductive DecResult where
  | success : List Char → DecResult
  | wrongPassword : DecResult
  | otherError : DecResult

inductive PromptResp where
  | submit : List Char → PromptResp
  | cancel : PromptResp

inductive LoopRes where
  | aborted : LoopRes
  | done : List JVal → List PromptResp → LoopRes

/-- The `for (const shareStr of shareStrings)` decryption loop
(`ShareManager.js:911-940`): on a wrong password, one retry prompt is shown;
a second wrong password aborts the whole attempt; a cancelled retry prompt
rejects with a message the catch does not recognize, so the loop simply
continues with the next share and the old password. -/
def decryptLoop (decrypt : List Char → List Char → DecResult) :
    List (List Char) → List Char → List PromptResp → List JVal → LoopRes
  | [], _, prompts, acc => .done acc prompts
  | s :: rest, pw, prompts, acc =>
    match decrypt s pw with
    | .success txt =>
      match recoverParseLine txt with
      | some sd => decryptLoop decrypt rest pw prompts (acc ++ [sd])
      | none => decryptLoop decrypt rest pw prompts acc
    | .otherError => decryptLoop decrypt rest pw prompts acc
    | .wrongPassword =>
      match prompts with
      | [] => decryptLoop decrypt rest pw [] acc
      | .cancel :: ps => decryptLoop decrypt rest pw ps acc
      | .submit p2 :: ps =>
        match decrypt s p2 with
        | .success txt =>
          match recoverParseLine txt with
          | some sd => decryptLoop decrypt rest p2 ps (acc ++ [sd])
          | none => decryptLoop decrypt rest p2 ps acc
        | .wrongPassword => .aborted
        | .otherError => decryptLoop decrypt rest p2 ps acc

inductive Rec2Outcome where
  | errPasswordRequired : Rec2Outcome
  | errInvalidPassword : Rec2Outcome
  | errDecryptionFailed : Rec2Outcome
  | errInsufficient : JVal → Nat → Rec2Outcome
  | errException : Rec2Outcome
  | recovered : List Nat → Rec2Outcome

/-- The encrypted branch of `recoverMnemonic` (`ShareManager.js:896-971`),
reached when no line parsed as a plaintext token and some line threw: prompt
for a password (cancellation aborts with the password-required error), run
the decryption loop, then the usual threshold / slice / combine tail. -/
def recoverEncryptedModel (decrypt : List Char → List Char → DecResult)
    (combine : List (List Nat) → List Nat) (prompts : List PromptResp)
    (shareStrings : List (List Char)) : Rec2Outcome :=
  match prompts with
  | [] => .errPasswordRequired
  | .cancel :: _ => .errPasswordRequired
  | .submit pw :: ps =>
    match decryptLoop decrypt shareStrings pw ps [] with
    | .aborted => .errInvalidPassword
    | .done validShareData _ =>
      match validShareData with
      | [] => .errDecryptionFailed
      | first :: rest =>
        let threshold := (fieldOf first keyThreshold).getD .jnull
        if jsLtNat (first :: rest).length threshold then
          .errInsufficient threshold (first :: rest).length
        else
          match extractPayloads ((first :: rest).take (jsSliceCount threshold)) with
          | some shares => .recovered (combine shares)
          | none => .errException

/-! Basic facts about the base64 digits. -/

theorem b64Char_mem (n : Nat) : b64Char n ∈ b64Alphabet := by
  unfold b64Char List.getD
  cases h : b64Alphabet.get? n with
  | none => simp [h]; decide
  | some c => simp [h, List.get?_mem h]

theorem b64Val_b64Char {n : Nat} (h : n < 64) : b64Val (b64Char n) = some n := by
  revert h
  revert n
  decide

theorem mem_b64Alphabet_ne_pad : ∀ c ∈ b64Alphabet, c ≠ '=' := by decide

theorem b64Char_ne_pad (n : Nat) : b64Char n ≠ '=' :=
  mem_b64Alphabet_ne_pad _ (b64Char_mem n)

theorem b64encode_ne_nil {bs : List Nat} (h : bs ≠ []) : b64encode bs ≠ [] := by
  match bs with
  | [] => exact absurd rfl h
  | [a] => simp [b64encode]
  | [a, b] => simp [b64encode]
  | a :: b :: c :: rest => simp [b64encode]

/-- `atob` inverts `btoa` on genuine byte lists. -/
theorem b64decode_b64encode {bs : List Nat} (h : ∀ x ∈ bs, x < 256) :
    b64decode (b64encode bs) = some bs := by
  induction bs using b64encode.induct with
  | case1 => simp [b64encode, b64decode]
  | case2 a =>
    have ha : a < 256 := h a (by simp)
    have h1 : a / 4 < 64 := by omega
    have h2 : a % 4 * 16 < 64 := by omega
    simp only [b64encode, b64decode, List.isEmpty_nil, if_true, b64quantum, if_pos rfl,
      b64Val_b64Char h1, b64Val_b64Char h2, Option.bind_eq_bind, Option.some_bind]
    simp only [Option.pure_def, Option.some.injEq, List.cons.injEq, and_true]
    omega
  | case3 a b =>
    have ha : a < 256 := h a (by simp)
    have hb : b < 256 := h b (by simp)
    have h1 : a / 4 < 64 := by omega
    have h2 : a % 4 * 16 + b / 16 < 64 := by omega
    have h3 : b % 16 * 4 < 64 := by omega
    simp only [b64encode, b64decode, List.isEmpty_nil, if_true, b64quantum,
      if_neg (b64Char_ne_pad _), if_pos rfl,
      b64Val_b64Char h1, b64Val_b64Char h2, b64Val_b64Char h3,
      Option.bind_eq_bind, Option.some_bind]
    simp only [Option.pure_def, Option.some.injEq, List.cons.injEq, and_true]
    omega
  | case4 a b c rest ih =>
    have ha : a < 256 := h a (by simp)
    have hb : b < 256 := h b (by simp)
    have hc : c < 256 := h c (by simp)
    have h1 : a / 4 < 64 := by omega
    have h2 : a % 4 * 16 + b / 16 < 64 := by omega
    have h3 : b % 16 * 4 + c / 64 < 64 := by omega
    have h4 : c % 64 < 64 := by omega
    have ihrest := ih (fun x hx => h x (by simp [hx]))
    have e1 : a / 4 * 4 + (a % 4 * 16 + b / 16) / 16 = a := by omega
    have e2 : (a % 4 * 16 + b / 16) % 16 * 16 + (b % 16 * 4 + c / 64) / 4 = b := by omega
    have e3 : (b % 16 * 4 + c / 64) % 4 * 64 + c % 64 = c := by omega
    cases hrest : rest with
    | nil =>
      subst hrest
      simp only [b64encode, b64decode, List.isEmpty_nil, if_true, b64quantum,
        if_neg (b64Char_ne_pad _), b64chunk,
        b64Val_b64Char h1, b64Val_b64Char h2, b64Val_b64Char h3, b64Val_b64Char h4,
        Option.bind_eq_bind, Option.some_bind, Option.map_some]
      simp [e1, e2, e3]
    | cons y ys =>
      subst hrest
      have hne : b64encode (y :: ys) ≠ [] := b64encode_ne_nil (by simp)
      simp only [b64encode, b64decode, List.isEmpty_eq_true, if_neg hne, b64chunk,
        b64Val_b64Char h1, b64Val_b64Char h2, b64Val_b64Char h3, b64Val_b64Char h4,
        Option.bind_eq_bind, Option.some_bind, ihrest]
      simp [e1, e2, e3]

theorem isDig_digitChar {n : Nat} (h : n < 10) : isDig (digitChar n) = true := by
  interval_cases n <;> decide

theorem isDig_not_ws {c : Char} (h : isDig c = true) : isJsonWs c = false := by
  simp only [isDig, Bool.and_eq_true, decide_eq_true_eq] at h
  have h48 : 48 ≤ c.toNat := h.1
  simp only [isJsonWs]
  rcases h' : decide (c = ' ') with _ | _
  · rcases h'' : decide (c = '\t') with _ | _
    · rcases h3 : decide (c = '\n') with _ | _
      · rcases h4 : decide (c = '\r') with _ | _
        · rfl
        · simp only [decide_eq_true_eq] at h4
          subst h4
          simp at h48
      · simp only [decide_eq_true_eq] at h3
        subst h3
        simp at h48
    · simp only [decide_eq_true_eq] at h''
      subst h''
      simp at h48
  · simp only [decide_eq_true_eq] at h'
    subst h'
    simp at h48

theorem natCharsAux_ne_nil {fuel n : Nat} (h : 0 < fuel) : natCharsAux fuel n ≠ [] := by
  match fuel with
  | f + 1 =>
    simp only [natCharsAux]
    split
    · simp
    · simp

theorem natCharsAux_digits {fuel n : Nat} (hn : n < fuel) :
    ∀ c ∈ natCharsAux fuel n, isDig c = true := by
  induction fuel generalizing n with
  | zero => omega
  | succ f ih =>
    intro c hc
    simp only [natCharsAux] at hc
    split at hc
    · rcases List.mem_singleton.mp hc with rfl
      exact isDig_digitChar (by omega)
    · rcases List.mem_append.mp hc with h | h
      · exact ih (by omega) c h
      · rcases List.mem_singleton.mp h with rfl
        exact isDig_digitChar (by omega)

theorem natChars_ne_nil (n : Nat) : natChars n ≠ [] :=
  natCharsAux_ne_nil (by omega)

theorem natChars_digits (n : Nat) : ∀ c ∈ natChars n, isDig c = true :=
  natCharsAux_digits (by omega)

theorem digitChar_toNat {n : Nat} (h : n < 10) : (digitChar n).toNat - 48 = n := by
  interval_cases n <;> decide

theorem parseNatAux_append {ds : List Char} (h : ∀ c ∈ ds, isDig c = true)
    (acc : Nat) (r : List Char) :
    parseNatAux acc (ds ++ r) = parseNatAux (pushDigits acc ds) r := by
  induction ds generalizing acc with
  | nil => simp [pushDigits]
  | cons c cs ih =>
    have hc : isDig c = true := h c (by simp)
    have hpush : pushDigits acc (c :: cs) = pushDigits (acc * 10 + (c.toNat - 48)) cs := rfl
    simp only [List.cons_append, parseNatAux, hc, if_true, hpush]
    exact ih (fun x hx => h x (List.mem_cons_of_mem c hx)) (acc * 10 + (c.toNat - 48))

theorem parseNatAux_stop {r : List Char} (h : ∀ c, r.head? = some c → isDig c = false)
    (acc : Nat) : parseNatAux acc r = (acc, r) := by
  cases r with
  | nil => simp [parseNatAux]
  | cons c cs =>
    have := h c rfl
    simp [parseNatAux, this]

theorem pushDigits_natCharsAux {fuel : Nat} :
    ∀ {n : Nat}, n < fuel → ∀ acc,
      pushDigits acc (natCharsAux fuel n) = acc * 10 ^ (natCharsAux fuel n).length + n := by
  induction fuel with
  | zero => omega
  | succ f ih =>
    intro n hn acc
    simp only [natCharsAux]
    split
    · next h10 =>
      simp only [pushDigits, List.foldl_cons, List.foldl_nil, List.length_singleton,
        pow_one, digitChar_toNat h10]
    · next h10 =>
      have hdivlt : n / 10 < f := by omega
      have hrec := ih hdivlt acc
      simp only [pushDigits, List.foldl_append, List.foldl_cons, List.foldl_nil,
        List.length_append, List.length_singleton]
      simp only [pushDigits] at hrec
      rw [hrec, digitChar_toNat (by omega), pow_succ]
      have hmod : n / 10 * 10 + n % 10 = n := by omega
      generalize (natCharsAux f (n / 10)).length = L
      generalize hX : acc * 10 ^ L = X
      have : (X + n / 10) * 10 + n % 10 = X * 10 + n := by omega
      linarith [this]

theorem pushDigits_natChars (n : Nat) : pushDigits 0 (natChars n) = n := by
  have := @pushDigits_natCharsAux (n + 1) n (by omega) 0
  simpa [natChars] using this

/-- Parsing the numeral of `n` followed by a non-digit returns exactly `n`. -/
theorem parseNatAux_natChars (n : Nat) {r : List Char}
    (h : ∀ c, r.head? = some c → isDig c = false) :
    parseNatAux 0 (natChars n ++ r) = (n, r) := by
  rw [parseNatAux_append (natChars_digits n) 0 r, pushDigits_natChars,
    parseNatAux_stop h]

/-! ### Parsing the serialized share object -/

theorem parseStringBody_safe {s : List Char} (h : ∀ c ∈ s, c ≠ '"' ∧ c ≠ '\\')
    (r : List Char) : parseStringBody (s ++ '"' :: r) = some (s, r) := by
  unfold parseStringBody
  induction s with
  | nil => simp [parseStringBodyAux]
  | cons c cs ih =>
    have hc := h c (by simp)
    simp only [List.cons_append, parseStringBodyAux, if_neg hc.1, if_neg hc.2]
    rw [List.append_eq, ih (fun x hx => h x (List.mem_cons_of_mem c hx))]
    rfl

/-- Dispatch of `parseVal` on a decimal numeral. -/
theorem parseVal_natChars (f n : Nat) (r : List Char)
    (h : ∀ c, r.head? = some c → isDig c = false) :
    parseVal (f + 1) (natChars n ++ r) = some (.jnum (n : Int), r) := by
  obtain ⟨c, cs, hcons⟩ : ∃ c cs, natChars n = c :: cs := by
    cases hh : natChars n with
    | nil => exact absurd hh (natChars_ne_nil n)
    | cons c cs => exact ⟨c, cs, rfl⟩
  have hdig : isDig c = true := by
    apply natChars_digits n
    rw [hcons]
    simp
  have hnum := parseNatAux_natChars n h
  rw [hcons] at hnum ⊢
  simp only [List.cons_append, parseVal, List.dropWhile_cons, isDig_not_ws hdig,
    Bool.false_eq_true, if_false, hdig, if_true, List.cons_append] at hnum ⊢
  rw [hnum]

/-- Dispatch of `parseVal` on a string literal. -/
theorem parseVal_strLit (f : Nat) {dat : List Char}
    (hdat : ∀ c ∈ dat, c ≠ '"' ∧ c ≠ '\\') (r : List Char) :
    parseVal (f + 1) ('"' :: dat ++ '"' :: r) = some (.jstr dat, r) := by
  have hsb := parseStringBody_safe hdat r
  simp only [parseVal, List.cons_append, List.dropWhile_cons]
  simp [isJsonWs, isDig, hsb]

/-- Dispatch of `parseVal` on an object opener. -/
theorem parseVal_objStep (g : Nat) (cs rest : List Char)
    (hcs : cs = '{' :: rest) {fs : List (List Char × JVal)} {r : List Char}
    (h : parseMembers g rest true = some (fs, r)) :
    parseVal (g + 1) cs = some (.jobj fs, r) := by
  subst hcs
  simp only [parseVal, List.dropWhile_cons]
  simp [isJsonWs, isDig, h]

/-- One `"name":value,` member followed by further members. -/
theorem parseMembers_step_more (g : Nat) (cs : List Char) {name vs r4 : List Char} {v : JVal}
    {fs : List (List Char × JVal)} {r5 : List Char} (first : Bool)
    (hcs : cs = '"' :: (name ++ '"' :: ':' :: vs))
    (hname : ∀ c ∈ name, c ≠ '"' ∧ c ≠ '\\')
    (hval : parseVal g vs = some (v, ',' :: r4))
    (hrest : parseMembers g r4 false = some (fs, r5)) :
    parseMembers (g + 1) cs first = some ((name, v) :: fs, r5) := by
  subst hcs
  have hsb := parseStringBody_safe hname (':' :: vs)
  simp only [parseMembers, List.dropWhile_cons]
  simp [isJsonWs, isDig, hsb, hval, hrest]

/-- The final `"name":value}` member of an object. -/
theorem parseMembers_step_last (g : Nat) (cs : List Char) {name vs r4 : List Char} {v : JVal}
    (first : Bool)
    (hcs : cs = '"' :: (name ++ '"' :: ':' :: vs))
    (hname : ∀ c ∈ name, c ≠ '"' ∧ c ≠ '\\')
    (hval : parseVal g vs = some (v, '}' :: r4)) :
    parseMembers (g + 1) cs first = some ([(name, v)], r4) := by
  subst hcs
  have hsb := parseStringBody_safe hname (':' :: vs)
  simp only [parseMembers, List.dropWhile_cons]
  simp [isJsonWs, isDig, hsb, hval]

/-- `parseVal` recovers the generated share object from its serialization. -/
theorem parseVal_stringifyShare (f idx thr tot : Nat) {dat : List Char}
    (hdat : ∀ c ∈ dat, c ≠ '"' ∧ c ≠ '\\') :
    parseVal (f + 6) (stringifyShare idx thr tot dat)
      = some (shareJVal idx thr tot dat, []) := by
  have hm4 : parseVal (f + 1) ('"' :: dat ++ '"' :: '}' :: []) = some (.jstr dat, '}' :: []) :=
    parseVal_strLit f hdat ('}' :: [])
  have hM4 := parseMembers_step_last (f + 1)
    ('"' :: (keyData ++ '"' :: ':' :: ('"' :: dat ++ '"' :: '}' :: []))) false rfl
    (by decide) hm4
  have hm3 := parseVal_natChars (f + 1) tot
    (',' :: '"' :: (keyData ++ '"' :: ':' :: ('"' :: dat ++ '"' :: '}' :: [])))
    (by intro c hc; cases hc; decide)
  have hM3 := parseMembers_step_more (f + 2)
    ('"' :: (keyTotal ++ '"' :: ':' ::
      (natChars tot ++ ',' :: '"' :: (keyData ++ '"' :: ':' :: ('"' :: dat ++ '"' :: '}' :: [])))))
    false rfl (by decide) hm3 hM4
  have hm2 := parseVal_natChars (f + 2) thr
    (',' :: '"' :: (keyTotal ++ '"' :: ':' ::
      (natChars tot ++ ',' :: '"' :: (keyData ++ '"' :: ':' :: ('"' :: dat ++ '"' :: '}' :: [])))))
    (by intro c hc; cases hc; decide)
  have hM2 := parseMembers_step_more (f + 3)
    ('"' :: (keyThreshold ++ '"' :: ':' ::
      (natChars thr ++ ',' :: '"' :: (keyTotal ++ '"' :: ':' ::
        (natChars tot ++ ',' :: '"' :: (keyData ++ '"' :: ':' :: ('"' :: dat ++ '"' :: '}' :: [])))))))
    false rfl (by decide) hm2 hM3
  have hm1 := parseVal_natChars (f + 3) idx
    (',' :: '"' :: (keyThreshold ++ '"' :: ':' ::
      (natChars thr ++ ',' :: '"' :: (keyTotal ++ '"' :: ':' ::
        (natChars tot ++ ',' :: '"' :: (keyData ++ '"' :: ':' :: ('"' :: dat ++ '"' :: '}' :: [])))))))
    (by intro c hc; cases hc; decide)
  have hM1 := parseMembers_step_more (f + 4)
    ('"' :: (keyIndex ++ '"' :: ':' ::
      (natChars idx ++ ',' :: '"' :: (keyThreshold ++ '"' :: ':' ::
        (natChars thr ++ ',' :: '"' :: (keyTotal ++ '"' :: ':' ::
          (natChars tot ++ ',' :: '"' :: (keyData ++ '"' :: ':' :: ('"' :: dat ++ '"' :: '}' :: [])))))))))
    true rfl (by decide) hm1 hM2
  have hfinal := parseVal_objStep (f + 5)
    (stringifyShare idx thr tot dat)
    ('"' :: (keyIndex ++ '"' :: ':' ::
      (natChars idx ++ ',' :: '"' :: (keyThreshold ++ '"' :: ':' ::
        (natChars thr ++ ',' :: '"' :: (keyTotal ++ '"' :: ':' ::
          (natChars tot ++ ',' :: '"' :: (keyData ++ '"' :: ':' :: ('"' :: dat ++ '"' :: '}' :: [])))))))))
    (by simp [stringifyShare, keyIndex, keyThreshold, keyTotal, keyData]) hM1
  exact hfinal

/-- `JSON.parse` recovers the generated share object from its serialization. -/
theorem jsonParse_stringifyShare (idx thr tot : Nat) {dat : List Char}
    (hdat : ∀ c ∈ dat, c ≠ '"' ∧ c ≠ '\\') :
    jsonParse (stringifyShare idx thr tot dat) = some (shareJVal idx thr tot dat) := by
  unfold jsonParse
  rw [parseVal_stringifyShare (stringifyShare idx thr tot dat).length idx thr tot hdat]
  simp

/-! ### Character-class lemmas for the encoder output -/

theorem mem_b64encode_mem {bs : List Nat} :
    ∀ c ∈ b64encode bs, c ∈ b64Alphabet ∨ c = '=' := by
  induction bs using b64encode.induct with
  | case1 => simp [b64encode]
  | case2 a =>
    intro c hc
    simp only [b64encode, List.mem_cons, List.not_mem_nil, or_false] at hc
    rcases hc with rfl | rfl | rfl | rfl
    · exact .inl (b64Char_mem _)
    · exact .inl (b64Char_mem _)
    · exact .inr rfl
    · exact .inr rfl
  | case3 a b =>
    intro c hc
    simp only [b64encode, List.mem_cons, List.not_mem_nil, or_false] at hc
    rcases hc with rfl | rfl | rfl | rfl
    · exact .inl (b64Char_mem _)
    · exact .inl (b64Char_mem _)
    · exact .inl (b64Char_mem _)
    · exact .inr rfl
  | case4 a b c rest ih =>
    intro x hx
    simp only [b64encode, List.mem_cons] at hx
    rcases hx with rfl | rfl | rfl | rfl | h
    · exact .inl (b64Char_mem _)
    · exact .inl (b64Char_mem _)
    · exact .inl (b64Char_mem _)
    · exact .inl (b64Char_mem _)
    · exact ih x h

theorem mem_b64Alphabet_props :
    ∀ c ∈ b64Alphabet, c ≠ '"' ∧ c ≠ '\\' ∧ isJsonWs c = false ∧ c.toNat < 256 := by
  decide

theorem b64encode_char_safe {bs : List Nat} :
    ∀ c ∈ b64encode bs, c ≠ '"' ∧ c ≠ '\\' ∧ isJsonWs c = false ∧ c.toNat < 256 := by
  intro c hc
  rcases mem_b64encode_mem c hc with h | rfl
  · exact mem_b64Alphabet_props c h
  · refine ⟨by decide, by decide, by decide, by decide⟩

theorem isDig_toNat_lt {c : Char} (h : isDig c = true) : c.toNat < 256 := by
  simp only [isDig, Bool.and_eq_true, decide_eq_true_eq] at h
  have : c.toNat ≤ 57 := h.2
  omega

theorem forall_toNat_append {l1 l2 : List Char}
    (h1 : ∀ c ∈ l1, c.toNat < 256) (h2 : ∀ c ∈ l2, c.toNat < 256) :
    ∀ c ∈ l1 ++ l2, c.toNat < 256 := by
  intro c hc
  rcases List.mem_append.mp hc with h | h
  · exact h1 c h
  · exact h2 c h

theorem natChars_ascii (n : Nat) : ∀ c ∈ natChars n, c.toNat < 256 :=
  fun c h => isDig_toNat_lt (natChars_digits n c h)

theorem stringifyShare_ascii (idx thr tot : Nat) {dat : List Char}
    (hdat : ∀ c ∈ dat, c.toNat < 256) :
    ∀ c ∈ stringifyShare idx thr tot dat, c.toNat < 256 := by
  unfold stringifyShare
  refine forall_toNat_append ?_ (by decide)
  refine forall_toNat_append ?_ hdat
  refine forall_toNat_append ?_ (by decide)
  refine forall_toNat_append ?_ (natChars_ascii tot)
  refine forall_toNat_append ?_ (by decide)
  refine forall_toNat_append ?_ (natChars_ascii thr)
  refine forall_toNat_append ?_ (by decide)
  exact forall_toNat_append (by decide) (natChars_ascii idx)

theorem bytesToChars_charsToBytes (s : List Char) :
    bytesToChars (charsToBytes s) = s := by
  unfold bytesToChars charsToBytes
  rw [List.map_map]
  have h : Char.ofNat ∘ Char.toNat = id := funext Char.ofNat_toNat
  rw [h, List.map_id]

theorem dropWhile_eq_self_of_none {s : List Char} (h : ∀ c ∈ s, isJsonWs c = false) :
    s.dropWhile isJsonWs = s := by
  cases s with
  | nil => rfl
  | cons c cs => simp [List.dropWhile_cons, h c (by simp)]

theorem trimStr_eq_self {s : List Char} (h : ∀ c ∈ s, isJsonWs c = false) :
    trimStr s = s := by
  unfold trimStr
  rw [dropWhile_eq_self_of_none h,
    dropWhile_eq_self_of_none (fun c hc => h c (List.mem_reverse.mp hc)),
    List.reverse_reverse]

/-! ### Round trip of the shard codec -/

theorem charsToBytes_lt {s : List Char} (h : ∀ c ∈ s, c.toNat < 256) :
    ∀ x ∈ charsToBytes s, x < 256 := by
  intro x hx
  rcases List.mem_map.mp hx with ⟨c, hc, rfl⟩
  exact h c hc

theorem stringifyShare_ne_nil (idx thr tot : Nat) (dat : List Char) :
    stringifyShare idx thr tot dat ≠ [] := by
  simp [stringifyShare]

theorem encodeShare_ne_nil (r : ShardRecord) : encodeShare r ≠ [] := by
  unfold encodeShare
  apply b64encode_ne_nil
  simp [charsToBytes, stringifyShare]

theorem decodeTokenRaw_encodeShare (r : ShardRecord) :
    decodeTokenRaw (encodeShare r)
      = some (shareJVal r.ordinalIndex r.threshold r.totalCount (b64encode r.payload)) := by
  have hascii : ∀ c ∈ stringifyShare r.ordinalIndex r.threshold r.totalCount
      (b64encode r.payload), c.toNat < 256 :=
    stringifyShare_ascii _ _ _ (fun c hc => (b64encode_char_safe c hc).2.2.2)
  have hsafe : ∀ c ∈ b64encode r.payload, c ≠ '"' ∧ c ≠ '\\' :=
    fun c hc => ⟨(b64encode_char_safe c hc).1, (b64encode_char_safe c hc).2.1⟩
  unfold decodeTokenRaw encodeShare
  rw [b64decode_b64encode (charsToBytes_lt hascii), Option.some_bind,
    bytesToChars_charsToBytes]
  exact jsonParse_stringifyShare _ _ _ hsafe

theorem mem_dropWhile_mem {p : Char → Bool} {l : List Char} :
    ∀ c ∈ l.dropWhile p, c ∈ l := by
  intro c hc
  exact List.Sublist.subset (List.dropWhile_sublist p) hc

theorem mem_trimStr {s : List Char} : ∀ c ∈ trimStr s, c ∈ s := by
  intro c hc
  unfold trimStr at hc
  have h1 := List.mem_reverse.mp hc
  have h2 := mem_dropWhile_mem _ h1
  have h3 := List.mem_reverse.mp h2
  exact mem_dropWhile_mem _ h3

theorem isValidShareFormat_encodeShare (r : ShardRecord) (hv : r.Valid)
    (hp : r.payload ≠ []) : isValidShareFormat (.jstr (encodeShare r)) = true := by
  obtain ⟨hidx, hthr, htot, hbytes⟩ := hv
  have hws : ∀ c ∈ encodeShare r, isJsonWs c = false :=
    fun c hc => (b64encode_char_safe c hc).2.2.1
  simp only [isValidShareFormat]
  rw [if_neg (by simp [encodeShare_ne_nil r])]
  rw [trimStr_eq_self hws, decodeTokenRaw_encodeShare r]
  simp only [shareFieldsOk]
  have hth : getField [(keyIndex, JVal.jnum (r.ordinalIndex : Int)),
      (keyThreshold, JVal.jnum (r.threshold : Int)), (keyTotal, JVal.jnum (r.totalCount : Int)),
      (keyData, JVal.jstr (b64encode r.payload))] keyThreshold
      = some (JVal.jnum (r.threshold : Int)) := rfl
  have hin : getField [(keyIndex, JVal.jnum (r.ordinalIndex : Int)),
      (keyThreshold, JVal.jnum (r.threshold : Int)), (keyTotal, JVal.jnum (r.totalCount : Int)),
      (keyData, JVal.jstr (b64encode r.payload))] keyIndex
      = some (JVal.jnum (r.ordinalIndex : Int)) := rfl
  have hda : getField [(keyIndex, JVal.jnum (r.ordinalIndex : Int)),
      (keyThreshold, JVal.jnum (r.threshold : Int)), (keyTotal, JVal.jnum (r.totalCount : Int)),
      (keyData, JVal.jstr (b64encode r.payload))] keyData
      = some (JVal.jstr (b64encode r.payload)) := rfl
  simp only [shareJVal, hth, hin, hda, truthy, Bool.and_eq_true, decide_eq_true_eq]
  refine ⟨⟨by omega, by omega⟩, ?_⟩
  simp [b64encode_ne_nil hp]

theorem parseShareData_encodeShare (r : ShardRecord) (hv : r.Valid)
    (hp : r.payload ≠ []) :
    parseShareData (.jstr (encodeShare r))
      = some (shareJVal r.ordinalIndex r.threshold r.totalCount (b64encode r.payload)) := by
  have hws : ∀ c ∈ encodeShare r, isJsonWs c = false :=
    fun c hc => (b64encode_char_safe c hc).2.2.1
  simp only [parseShareData]
  rw [if_pos (isValidShareFormat_encodeShare r hv hp), trimStr_eq_self hws]
  exact decodeTokenRaw_encodeShare r

/-- C1: for every valid ShardRecord with a nonempty payload, decoding the
token produced by encoding it recovers exactly the four fields, the payload
through the same `atob` that recovery applies.  (The nonemptiness proviso is
forced: an empty payload serializes to `data:""`, which the format check
rejects as falsy — see the counterexample.) -/
theorem C1_decode_encode_roundtrip (r : ShardRecord) (hv : r.Valid)
    (hp : r.payload ≠ []) :
    ∃ fs, parseShareData (.jstr (encodeShare r)) = some (.jobj fs)
      ∧ getField fs keyIndex = some (.jnum (r.ordinalIndex : Int))
      ∧ getField fs keyThreshold = some (.jnum (r.threshold : Int))
      ∧ getField fs keyTotal = some (.jnum (r.totalCount : Int))
      ∧ extractPayload (.jobj fs) = some r.payload := by
  refine ⟨[(keyIndex, .jnum (r.ordinalIndex : Int)), (keyThreshold, .jnum (r.threshold : Int)),
    (keyTotal, .jnum (r.totalCount : Int)), (keyData, .jstr (b64encode r.payload))],
    parseShareData_encodeShare r hv hp, rfl, rfl, rfl, ?_⟩
  simp only [extractPayload, fieldOf, getField]
  norm_num
  exact b64decode_b64encode hv.2.2.2

/-- C1 witness: the round trip at the concrete record (1, 2, 3, [7]). -/
theorem C1_decode_encode_roundtrip_witness :
    ∃ fs, parseShareData (.jstr (encodeShare ⟨1, 2, 3, [7]⟩)) = some (.jobj fs)
      ∧ getField fs keyIndex = some (.jnum 1)
      ∧ getField fs keyThreshold = some (.jnum 2)
      ∧ getField fs keyTotal = some (.jnum 3)
      ∧ extractPayload (.jobj fs) = some [7] :=
  C1_decode_encode_roundtrip ⟨1, 2, 3, [7]⟩
    ⟨by norm_num, by norm_num, by norm_num, by decide⟩ (by decide)

/-- C1 counterexample: the record (1, 2, 2, []) satisfies the claim's
validity constraints (ordinalIndex ≥ 1, threshold ≥ 2, totalCount ≥
threshold, payload bytes), yet decoding its encoding fails outright — the
empty payload serializes to a falsy `data` field — so `decode(encode r) = r`
is false for it. -/
theorem C1_empty_payload_counterexample :
    parseShareData (.jstr (encodeShare ⟨1, 2, 2, []⟩)) = none := by
  rfl

theorem vsc_errors_eq (shares : List JVal) :
    (validateShareCollection shares).errors
      = vscErrors (vscState shares) (vscThreshold (vscState shares)) := rfl

theorem vsc_isValid_eq (shares : List JVal) :
    (validateShareCollection shares).isValid
      = ((vscErrors (vscState shares) (vscThreshold (vscState shares))).isEmpty
          && jsGeNat (vscState shares).validCount (vscThreshold (vscState shares))) := rfl

theorem vsc_validCount_eq (shares : List JVal) :
    (validateShareCollection shares).validCount = (vscState shares).validCount := rfl

theorem vsc_threshold_eq (shares : List JVal) :
    (validateShareCollection shares).threshold = vscThreshold (vscState shares) := rfl

theorem vsc_shareIndices_eq (shares : List JVal) :
    (validateShareCollection shares).shareIndices = (vscState shares).shareIndices := rfl

/-! ### Facts about decoded records and the index set -/

/-- Every record `parseShareData` returns is an object with truthy
`threshold`, `index` and `data` fields (the `isValidShareFormat` guard). -/
theorem parseShareData_shape {v sd : JVal} (h : parseShareData v = some sd) :
    ∃ fs, sd = .jobj fs ∧ truthy (getField fs keyThreshold) = true
      ∧ truthy (getField fs keyIndex) = true ∧ truthy (getField fs keyData) = true := by
  cases v with
  | jstr s =>
    simp only [parseShareData] at h
    split at h
    · next hvalid =>
      simp only [isValidShareFormat] at hvalid
      split at hvalid
      · cases hvalid
      · rw [h] at hvalid
        cases sd with
        | jobj fs =>
          simp only [shareFieldsOk, Bool.and_eq_true] at hvalid
          exact ⟨fs, rfl, hvalid.1.1, hvalid.1.2, hvalid.2⟩
        | jnull => cases hvalid
        | jbool b => cases hvalid
        | jnum n => cases hvalid
        | jstr t => cases hvalid
    · cases h
  | jnull => cases h
  | jbool b => cases h
  | jnum n => cases h
  | jobj fs => cases h

theorem parseShareData_truthy_threshold {v sd : JVal} (h : parseShareData v = some sd) :
    truthy (fieldOf sd keyThreshold) = true := by
  obtain ⟨fs, rfl, ht, _, _⟩ := parseShareData_shape h
  exact ht

theorem primEq_eq {a b : JVal} (h : primEq a b = true) : a = b := by
  cases a <;> cases b <;> simp_all [primEq]

theorem primEq_refl {a : JVal} (h : isPrimitiveB a = true) : primEq a a = true := by
  cases a <;> simp_all [primEq, isPrimitiveB]

theorem mem_insertSet_self {s : List JVal} {v : JVal} (h : isPrimitiveB v = true) :
    v ∈ insertSet s v := by
  unfold insertSet
  split
  · next hany =>
    obtain ⟨x, hx, hpe⟩ := List.any_eq_true.mp hany
    exact (primEq_eq hpe) ▸ hx
  · exact List.mem_append.mpr (.inr (by simp))

theorem mem_insertSet_mono {s : List JVal} {x v : JVal} (h : x ∈ s) :
    x ∈ insertSet s v := by
  unfold insertSet
  split
  · exact h
  · exact List.mem_append.mpr (.inl h)

theorem insertSet_length_le (s : List JVal) (v : JVal) :
    (insertSet s v).length ≤ s.length + 1 := by
  unfold insertSet
  split
  · omega
  · simp

theorem insertSet_eq_of_mem {s : List JVal} {v : JVal} (hv : v ∈ s)
    (hp : isPrimitiveB v = true) : insertSet s v = s := by
  unfold insertSet
  rw [if_pos]
  exact List.any_eq_true.mpr ⟨v, hv, primEq_refl hp⟩

theorem foldl_insertSet_length (l : List JVal) :
    ∀ s, (l.foldl insertSet s).length ≤ s.length + l.length := by
  induction l with
  | nil => intro s; simp
  | cons a rest ih =>
    intro s
    have h1 := insertSet_length_le s a
    have h2 := ih (insertSet s a)
    simp only [List.foldl_cons, List.length_cons]
    omega

theorem foldl_insertSet_mem {x : JVal} (l : List JVal) :
    ∀ {s}, x ∈ s → x ∈ l.foldl insertSet s := by
  induction l with
  | nil => intro s h; simpa using h
  | cons a rest ih =>
    intro s h
    simp only [List.foldl_cons]
    exact ih (mem_insertSet_mono h)

theorem foldl_insertSet_mem_of_elem {v : JVal} (hp : isPrimitiveB v = true)
    (l : List JVal) (hv : v ∈ l) : ∀ s, v ∈ l.foldl insertSet s := by
  induction l with
  | nil => cases hv
  | cons a rest ih =>
    intro s
    simp only [List.foldl_cons]
    rcases List.mem_cons.mp hv with rfl | h
    · exact foldl_insertSet_mem rest (mem_insertSet_self hp)
    · exact ih h _

/-- A value occurring twice in the inserted list is deduplicated: the set
ends strictly shorter than the list. -/
theorem foldl_insertSet_dup {v : JVal} (hp : isPrimitiveB v = true)
    (l1 l2 l3 : List JVal) (s : List JVal) :
    ((l1 ++ v :: (l2 ++ v :: l3)).foldl insertSet s).length
      ≤ s.length + l1.length + 1 + l2.length + l3.length := by
  rw [List.foldl_append, List.foldl_cons, List.foldl_append, List.foldl_cons]
  set s1 := l1.foldl insertSet s with hs1
  have hlen1 : s1.length ≤ s.length + l1.length := foldl_insertSet_length l1 s
  set s2 := insertSet s1 v with hs2
  have hlen2 : s2.length ≤ s1.length + 1 := insertSet_length_le s1 v
  have hv2 : v ∈ s2 := mem_insertSet_self hp
  set s3 := l2.foldl insertSet s2 with hs3
  have hlen3 : s3.length ≤ s2.length + l2.length := foldl_insertSet_length l2 s2
  have hv3 : v ∈ s3 := foldl_insertSet_mem l2 hv2
  rw [insertSet_eq_of_mem hv3 hp]
  have hlen4 := foldl_insertSet_length l3 s3
  omega

/-- The complete scan of a share batch, related to `filterMap
parseShareData`. -/
theorem scanShares_spec (l : List JVal) :
    ∀ (st : ScanState) (row : Nat),
      (scanShares st row l).validShareData
          = st.validShareData ++ l.filterMap parseShareData
      ∧ (scanShares st row l).validCount
          = st.validCount + (l.filterMap parseShareData).length
      ∧ (scanShares st row l).shareIndices
          = ((l.filterMap parseShareData).map shareIdxVal).foldl insertSet st.shareIndices
      ∧ (scanShares st row l).thresholdCandidates
          = (l.filterMap parseShareData).foldl candStep st.thresholdCandidates
      ∧ ∀ e ∈ (scanShares st row l).errors, e ∈ st.errors ∨ ∃ k, e = VErr.invalidRow k := by
  induction l with
  | nil =>
    intro st row
    refine ⟨by simp [scanShares], by simp [scanShares], by simp [scanShares],
      by simp [scanShares], ?_⟩
    intro e he
    exact .inl (by simpa [scanShares] using he)
  | cons a rest ih =>
    intro st row
    simp only [scanShares]
    obtain ⟨h1, h2, h3, h4, h5⟩ := ih (scanShare st row a) (row + 1)
    cases hps : parseShareData a with
    | some sd =>
      refine ⟨?_, ?_, ?_, ?_, ?_⟩
      · rw [h1]
        simp [scanShare, hps, List.filterMap_cons]
      · rw [h2]
        simp [scanShare, hps, List.filterMap_cons]
        omega
      · rw [h3]
        simp [scanShare, hps, List.filterMap_cons]
      · rw [h4]
        simp [scanShare, hps, List.filterMap_cons]
      · intro e he
        rcases h5 e he with h | h
        · simp only [scanShare, hps] at h
          exact .inl h
        · exact .inr h
    | none =>
      refine ⟨?_, ?_, ?_, ?_, ?_⟩
      · rw [h1]
        simp [scanShare, hps, List.filterMap_cons]
      · rw [h2]
        simp [scanShare, hps, List.filterMap_cons]
      · rw [h3]
        simp [scanShare, hps, List.filterMap_cons]
      · rw [h4]
        simp [scanShare, hps, List.filterMap_cons]
      · intro e he
        rcases h5 e he with h | h
        · simp only [scanShare, hps, List.mem_append] at h
          rcases h with h | h
          · exact .inl h
          · exact .inr ⟨row + 1, by simpa using h⟩
        · exact .inr h

/-! ### C4 — threshold consensus -/

/-- C4: (a) whenever some candidate decodes, the resolved threshold is the
`threshold` field of the first decoded candidate (input order
authoritative); (b) every decoded record has a truthy `threshold` field, so
the claimed fallback for a first candidate without a threshold is vacuously
satisfied (that branch of `validateShareCollection` is unreachable); (c)
with no decodable candidate the resolved threshold is the fixed default 3. -/
theorem C4_threshold_consensus (shares : List JVal) :
    (∀ sd rest, shares.filterMap parseShareData = sd :: rest →
      (validateShareCollection shares).threshold = (fieldOf sd keyThreshold).getD (.jnum 0)
        ∧ truthy (fieldOf sd keyThreshold) = true)
    ∧ (shares.filterMap parseShareData = [] →
      (validateShareCollection shares).threshold = .jnum 3) := by
  obtain ⟨h1, _h2, _h3, h4, _h5⟩ := scanShares_spec shares ⟨0, [], [], [], []⟩ 0
  constructor
  · intro sd rest hdec
    have hmem : sd ∈ shares.filterMap parseShareData := by
      rw [hdec]
      simp
    obtain ⟨x, _hx, hpx⟩ := List.mem_filterMap.mp hmem
    have htr : truthy (fieldOf sd keyThreshold) = true :=
      parseShareData_truthy_threshold hpx
    refine ⟨?_, htr⟩
    rw [vsc_threshold_eq]
    unfold vscThreshold vscState
    rw [h1, hdec]
    simp [resolveThreshold, htr]
  · intro hdec
    rw [vsc_threshold_eq]
    unfold vscThreshold vscState
    rw [h1, h4, hdec]
    simp [resolveThreshold]

/-- C4 witness: a single decodable token with threshold 2 resolves to 2, and
an undecodable batch resolves to the default 3. -/
theorem C4_threshold_consensus_witness :
    (validateShareCollection [.jstr (encodeShare ⟨1, 2, 3, [5]⟩)]).threshold = .jnum 2
      ∧ (validateShareCollection [.jstr ['x']]).threshold = .jnum 3 := by
  constructor
  · have h := (C4_threshold_consensus [.jstr (encodeShare ⟨1, 2, 3, [5]⟩)]).1
      (shareJVal 1 2 3 (b64encode [5])) [] (by rfl)
    rw [h.1]
    rfl
  · exact (C4_threshold_consensus [.jstr ['x']]).2 (by rfl)

/-! ### C2 — duplicate indices -/

/-- C2 (amended): whenever two decoded records of a batch carry the same
primitive `index` value, `validateShareCollection` reports the
duplicate-indices error, is not valid, and the verdict is DuplicateIndices —
never Ready — regardless of how many tokens were supplied.  (The recovery
routine itself performs no such check; see the counterexample.) -/
theorem C2_duplicate_indices (shares : List JVal) (v : JVal) (m1 m2 m3 : List JVal)
    (hp : isPrimitiveB v = true)
    (hdup : (shares.filterMap parseShareData).map shareIdxVal
      = m1 ++ v :: (m2 ++ v :: m3)) :
    (validateShareCollection shares).errors.any isDupErr = true
    ∧ (validateShareCollection shares).isValid = false
    ∧ processValidationResult (validateShareCollection shares) = .duplicateIndices := by
  obtain ⟨_h1, h2, h3, _h4, _h5⟩ := scanShares_spec shares ⟨0, [], [], [], []⟩ 0
  have hcountlen : (shares.filterMap parseShareData).length
      = ((shares.filterMap parseShareData).map shareIdxVal).length := by simp
  rw [hdup] at hcountlen
  simp only [List.length_append, List.length_cons] at hcountlen
  have hdecne : (vscState shares).shareIndices.length ≠ (vscState shares).validCount := by
    unfold vscState
    rw [h3, h2, hdup]
    have hle := foldl_insertSet_dup hp m1 m2 m3 []
    simp only [List.length_nil] at hle
    simp only [ScanState.shareIndices, ScanState.validCount]
    omega
  have hcount2 : 2 ≤ (vscState shares).validCount := by
    unfold vscState
    rw [h2]
    simp only [ScanState.validCount]
    omega
  have hmem : VErr.duplicateIndices
      ∈ vscErrors (vscState shares) (vscThreshold (vscState shares)) := by
    unfold vscErrors
    refine List.mem_append.mpr (.inr ?_)
    rw [if_pos hdecne]
    simp
  have herr : (validateShareCollection shares).errors.any isDupErr = true := by
    rw [vsc_errors_eq]
    exact List.any_eq_true.mpr ⟨_, hmem, rfl⟩
  have hvalid : (validateShareCollection shares).isValid = false := by
    rw [vsc_isValid_eq]
    have : (vscErrors (vscState shares) (vscThreshold (vscState shares))).isEmpty = false := by
      rcases hh : vscErrors (vscState shares) (vscThreshold (vscState shares)) with _ | ⟨e, es⟩
      · rw [hh] at hmem
        cases hmem
      · rfl
    rw [this]
    rfl
  refine ⟨herr, hvalid, ?_⟩
  have hcnt : (validateShareCollection shares).validCount = (vscState shares).validCount :=
    vsc_validCount_eq shares
  simp only [processValidationResult, hvalid, Bool.not_false, if_true]
  rw [if_neg (by omega), if_pos herr]

/-- C2 witness: the duplicate batch (index 1, index 1, index 2). -/
theorem C2_duplicate_indices_witness :
    processValidationResult (validateShareCollection
      [.jstr (encodeShare ⟨1, 2, 3, [5]⟩), .jstr (encodeShare ⟨1, 2, 3, [5]⟩),
       .jstr (encodeShare ⟨2, 2, 3, [6]⟩)]) = .duplicateIndices :=
  (C2_duplicate_indices _ (.jnum 1) [] [] [.jnum 2] (by rfl) (by rfl)).2.2

/-- C2 counterexample: the same duplicate-index batch, run through
`recoverMnemonic`, reaches the opaque `combine` and returns its result (here
a stand-in returning `[99]`): recovery over the batch does return a
reconstructed secret, because `recoverMnemonic` never checks for duplicate
indices — only the validator's verdict (second conjunct) flags the batch. -/
theorem C2_recovery_ignores_duplicates_counterexample :
    recoverMnemonicModel (fun _ => [99])
      [encodeShare ⟨1, 2, 3, [5]⟩, encodeShare ⟨1, 2, 3, [5]⟩, encodeShare ⟨2, 2, 3, [6]⟩]
      = .recovered [99]
    ∧ processValidationResult (validateShareCollection
      [.jstr (encodeShare ⟨1, 2, 3, [5]⟩), .jstr (encodeShare ⟨1, 2, 3, [5]⟩),
       .jstr (encodeShare ⟨2, 2, 3, [6]⟩)]) = .duplicateIndices := by
  exact ⟨by rfl, by rfl⟩

/-! ### C3 — insufficiency is never Ready -/

theorem jsLt_not_jsGe {n : Nat} {t : JVal} (h : jsLtNat n t = true) :
    jsGeNat n t = false := by
  unfold jsLtNat at h
  unfold jsGeNat
  cases ht : jsToNumber t with
  | none =>
    rw [ht] at h
  | some m =>
    rw [ht] at h
    have h2 : decide ((n : Int) < m) = true := h
    show decide (m ≤ (n : Int)) = false
    simp only [decide_eq_true_eq] at h2
    simp only [decide_eq_false_iff_not]
    omega

/-- C3 (amended): with `N` decoded records and resolved threshold `t`:
(a) `N < t` (JS comparison) means the batch is never valid (never Ready);
(b) if additionally `N ≥ 1` and no index is duplicated, the verdict is
InsufficientShares carrying `have = N` and `need = t`;
(c) with `N = 0` the verdict is InvalidFormat instead (the claim's
`N = 0` case fails, see the counterexample);
(d) a valid (Ready) result always has `N ≥ t`;
(e) in the upload path, inputs that are not successfully decoded plaintext
(`status ≠ valid`, in particular pending encrypted files) never produce a
Ready verdict on their own. -/
theorem C3_insufficient_never_ready (shares : List JVal) :
    (jsLtNat (validateShareCollection shares).validCount
        (validateShareCollection shares).threshold = true →
      (validateShareCollection shares).isValid = false)
    ∧ (0 < (validateShareCollection shares).validCount →
      jsLtNat (validateShareCollection shares).validCount
          (validateShareCollection shares).threshold = true →
      (validateShareCollection shares).shareIndices.length
          = (validateShareCollection shares).validCount →
      processValidationResult (validateShareCollection shares)
        = .insufficientShares (validateShareCollection shares).threshold
            (validateShareCollection shares).validCount)
    ∧ ((validateShareCollection shares).validCount = 0 →
      processValidationResult (validateShareCollection shares) = .invalidFormat)
    ∧ ((validateShareCollection shares).isValid = true →
      jsGeNat (validateShareCollection shares).validCount
        (validateShareCollection shares).threshold = true)
    ∧ (∀ files : List FileEntry, (∀ f ∈ files, f.status ≠ FileStatus.valid) →
      ∀ c t, validateCurrentSharesVerdict files ≠ .ready c t) := by
  obtain ⟨_h1, _h2, _h3, _h4, h5⟩ := scanShares_spec shares ⟨0, [], [], [], []⟩ 0
  have hscanerr : ∀ e ∈ (vscState shares).errors, ∃ k, e = VErr.invalidRow k := by
    intro e he
    rcases h5 e he with h | h
    · cases h
    · exact h
  refine ⟨?_, ?_, ?_, ?_, ?_⟩
  · intro hlt
    rw [vsc_isValid_eq]
    rw [vsc_validCount_eq, vsc_threshold_eq] at hlt
    rw [jsLt_not_jsGe hlt, Bool.and_false]
  · intro hpos hlt hnodup
    have hvalid : (validateShareCollection shares).isValid = false := by
      rw [vsc_isValid_eq]
      rw [vsc_validCount_eq, vsc_threshold_eq] at hlt
      rw [jsLt_not_jsGe hlt, Bool.and_false]
    have hcnt := vsc_validCount_eq shares
    have hnodup2 : ¬((vscState shares).shareIndices.length ≠ (vscState shares).validCount) := by
      rw [vsc_shareIndices_eq, vsc_validCount_eq] at hnodup
      omega
    have herrs : (validateShareCollection shares).errors
        = (vscState shares).errors
          ++ [VErr.insufficient (vscThreshold (vscState shares)) (vscState shares).validCount] := by
      rw [vsc_errors_eq]
      unfold vscErrors
      rw [vsc_validCount_eq] at hpos
      rw [if_neg (by omega), if_pos (by rwa [vsc_validCount_eq, vsc_threshold_eq] at hlt),
        if_neg hnodup2, List.append_nil]
    have hnoduperr : (validateShareCollection shares).errors.any isDupErr = false := by
      rw [herrs, List.any_append]
      have ha : (vscState shares).errors.any isDupErr = false := by
        rw [List.any_eq_false]
        intro e he
        obtain ⟨k, rfl⟩ := hscanerr e he
        simp [isDupErr]
      rw [ha]
      rfl
    simp only [processValidationResult, hvalid, Bool.not_false, if_true]
    rw [if_neg (by omega), if_neg (by rw [hnoduperr]; exact Bool.false_ne_true),
      vsc_threshold_eq, vsc_validCount_eq]
  · intro hzero
    have hmem : VErr.noValidShares ∈ (validateShareCollection shares).errors := by
      rw [vsc_errors_eq]
      unfold vscErrors
      rw [vsc_validCount_eq] at hzero
      rw [if_pos hzero]
      exact List.mem_append.mpr (.inl (List.mem_append.mpr (.inr (by simp))))
    have hvalid : (validateShareCollection shares).isValid = false := by
      rw [vsc_isValid_eq]
      have hne : (vscErrors (vscState shares) (vscThreshold (vscState shares))).isEmpty
          = false := by
        rw [← vsc_errors_eq]
        rcases hh : (validateShareCollection shares).errors with _ | ⟨e, es⟩
        · rw [hh] at hmem
          cases hmem
        · rfl
      rw [hne]
      rfl
    simp only [processValidationResult, hvalid, Bool.not_false, if_true]
    rw [if_pos hzero]
  · intro hvalid
    rw [vsc_isValid_eq] at hvalid
    rw [vsc_validCount_eq, vsc_threshold_eq]
    simp only [Bool.and_eq_true] at hvalid
    exact hvalid.2
  · intro files hnone c t
    unfold validateCurrentSharesVerdict
    have hfilter : (files.filter
        (fun f => f.status = FileStatus.valid && f.shareData.isSome)) = [] := by
      rw [List.filter_eq_nil]
      intro f hf
      simp only [Bool.and_eq_true, decide_eq_true_eq]
      intro hcon
      exact hnone f hf hcon.1
    rw [hfilter]
    simp only [List.filterMap_nil, List.isEmpty_nil, Bool.true_and]
    split
    · intro hcon
      cases hcon
    · intro hcon
      cases hcon

/-- C3 witness: one decodable token with threshold 2 yields
InsufficientShares(need 2, have 1); the Ready-side conjunct holds at a full
batch. -/
theorem C3_insufficient_never_ready_witness :
    processValidationResult (validateShareCollection [.jstr (encodeShare ⟨1, 2, 3, [5]⟩)])
      = .insufficientShares
          (validateShareCollection [.jstr (encodeShare ⟨1, 2, 3, [5]⟩)]).threshold
          (validateShareCollection [.jstr (encodeShare ⟨1, 2, 3, [5]⟩)]).validCount :=
  (C3_insufficient_never_ready [.jstr (encodeShare ⟨1, 2, 3, [5]⟩)]).2.1
    (by decide) (by rfl) (by rfl)

/-- C3 counterexample: a batch with zero decodable records (`N = 0 <
threshold = 3`) yields the InvalidFormat verdict, not
`InsufficientShares(have=0, need=3)` as the claim's universal `N <
threshold` rule demands. -/
theorem C3_zero_decodable_counterexample :
    processValidationResult (validateShareCollection [.jstr ['x']]) = .invalidFormat
    ∧ jsLtNat (validateShareCollection [.jstr ['x']]).validCount
        (validateShareCollection [.jstr ['x']]).threshold = true := ⟨rfl, rfl⟩

/-! ### C7 — recovery takes the first `threshold` records -/

/-- C7: when the decoded records are `first :: rest`, the first record's
threshold is the number `t`, and at least `t` records decoded, recovery
extracts the payloads of exactly the first `t` records (stable input order,
extras ignored) and returns the result of the opaque `combine` on them. -/
theorem C7_recover_first_threshold (combine : List (List Nat) → List Nat)
    (lines : List (List Char)) (first : JVal) (rest : List JVal) (t : Nat)
    (payloads : List (List Nat))
    (hdec : ((lines.map trimStr).filter (fun l => !l.isEmpty)).filterMap recoverParseLine
      = first :: rest)
    (hth : fieldOf first keyThreshold = some (.jnum (t : Int)))
    (hcount : t ≤ (first :: rest).length)
    (hex : extractPayloads ((first :: rest).take t) = some payloads) :
    recoverMnemonicModel combine lines = .recovered (combine payloads) := by
  unfold recoverMnemonicModel
  rw [hdec]
  simp only [hth, Option.getD_some]
  have hlt : jsLtNat (first :: rest).length (JVal.jnum (t : Int)) = false := by
    simp only [jsLtNat, jsToNumber]
    simp only [List.length_cons] at hcount ⊢
    simp only [decide_eq_false_iff_not]
    omega
  rw [hlt]
  have hslice : jsSliceCount (JVal.jnum (t : Int)) = t := by
    simp [jsSliceCount, jsToNumber]
  simp only [Bool.false_eq_true, if_false, hslice, hex]

/-- C7 witness: three shards of threshold 2; the first two payloads reach
`combine`, the third is ignored. -/
theorem C7_recover_first_threshold_witness :
    recoverMnemonicModel (fun ps => ps.flatten)
      [encodeShare ⟨1, 2, 3, [5]⟩, encodeShare ⟨2, 2, 3, [6]⟩, encodeShare ⟨3, 2, 3, [7]⟩]
      = .recovered [5, 6] :=
  C7_recover_first_threshold (fun ps => ps.flatten) _
    (shareJVal 1 2 3 (b64encode [5]))
    [shareJVal 2 2 3 (b64encode [6]), shareJVal 3 2 3 (b64encode [7])] 2 [[5], [6]]
    (by rfl) (by rfl) (by decide) (by rfl)

/-! ### C6 — verdict priority and the upload-path bug -/

/-- C6: `validateCurrentShares` hands the already-parsed `shareData`
objects to `validateShareCollection`, whose `parseShareData` accepts only
strings; every such object is rejected, so an uploaded batch of three
decoded records with a duplicated index is reported as
InsufficientShares(need 3, have 0) instead of the DuplicateIndices verdict
the priority rule demands — while the same three shards as pasted token
strings do produce DuplicateIndices. -/
theorem C6_upload_verdict_bug :
    validateCurrentSharesVerdict
      [⟨.valid, some (shareJVal 1 3 3 (b64encode [5]))⟩,
       ⟨.valid, some (shareJVal 1 3 3 (b64encode [6]))⟩,
       ⟨.valid, some (shareJVal 2 3 3 (b64encode [7]))⟩]
      = .insufficientShares (.jnum 3) 0
    ∧ processValidationResult (validateShareCollection
        [.jstr (encodeShare ⟨1, 3, 3, [5]⟩), .jstr (encodeShare ⟨1, 3, 3, [6]⟩),
         .jstr (encodeShare ⟨2, 3, 3, [7]⟩)]) = .duplicateIndices := ⟨rfl, rfl⟩

/-- C5 (amended): `decode` rejects malformed structure and missing-or-falsy
required fields — every record it returns is an object with truthy
`threshold`, `index` and `data` — and it tolerates unknown extra fields; but
the check is truthiness only: non-numeric truthy values pass (see the
counterexample) and the `total` field is never examined. -/
theorem C5_decode_shape :
    (∀ v sd, parseShareData v = some sd →
      ∃ fs, sd = .jobj fs ∧ truthy (getField fs keyThreshold) = true
        ∧ truthy (getField fs keyIndex) = true ∧ truthy (getField fs keyData) = true)
    ∧ parseShareData (.jstr (mkToken srcExtraField))
        = some (.jobj [(keyThreshold, .jnum 2), (keyIndex, .jnum 1),
            (keyData, .jstr ['x']), (['e','x','t','r','a'], .jbool true)]) := by
  exact ⟨fun v sd h => parseShareData_shape h, by rfl⟩

/-- C5 witness: the shape part applied to the extra-field token. -/
theorem C5_decode_shape_witness :
    ∃ fs, (JVal.jobj [(keyThreshold, .jnum 2), (keyIndex, .jnum 1),
        (keyData, .jstr ['x']), (['e','x','t','r','a'], .jbool true)]) = .jobj fs
      ∧ truthy (getField fs keyThreshold) = true
      ∧ truthy (getField fs keyIndex) = true ∧ truthy (getField fs keyData) = true :=
  C5_decode_shape.1 (.jstr (mkToken srcExtraField)) _ C5_decode_shape.2

/-- C5 counterexample: a token whose `threshold`, `index` and `data` are all
non-numeric strings is accepted by `parseShareData` (truthiness is the only
check), contradicting the claimed rejection of non-numeric
index/threshold/total; the token also lacks `total` entirely. -/
theorem C5_nonnumeric_accepted_counterexample :
    parseShareData (.jstr (mkToken srcNonNumeric))
      = some (.jobj [(keyThreshold, .jstr ['a','b','c']), (keyIndex, .jstr ['b']),
          (keyData, .jstr ['c'])]) := by rfl

/-- C10: `parseShareData` and `isValidShareFormat` are total functions in the
model — every JS exception path is an explicit `none`/`false` — and (a)
every record returned has truthy `threshold`, `index` and `data`; (b)
non-string inputs, the empty string, non-base64 and non-JSON strings are
rejected; (c) a JSON-valid token with `index` 0 or empty `data` is
rejected. -/
theorem C10_parse_total_and_truthy :
    (∀ v sd, parseShareData v = some sd →
      ∃ fs, sd = .jobj fs ∧ truthy (getField fs keyThreshold) = true
        ∧ truthy (getField fs keyIndex) = true ∧ truthy (getField fs keyData) = true)
    ∧ parseShareData .jnull = none
    ∧ parseShareData (.jnum 5) = none
    ∧ parseShareData (.jobj []) = none
    ∧ parseShareData (.jstr []) = none
    ∧ isValidShareFormat (.jstr []) = false
    ∧ isValidShareFormat .jnull = false
    ∧ parseShareData (.jstr ['n','o','t','-','b','6','4','!']) = none
    ∧ parseShareData (.jstr (b64encode (charsToBytes ['h','i']))) = none
    ∧ parseShareData (.jstr (mkToken srcIndexZero)) = none
    ∧ parseShareData (.jstr (mkToken srcEmptyData)) = none := by
  exact ⟨fun v sd h => parseShareData_shape h, rfl, rfl, rfl, rfl, rfl, rfl, rfl, rfl,
    by rfl, by rfl⟩

/-- C10 witness: the truthiness part applied to a concrete decodable
token. -/
theorem C10_parse_total_and_truthy_witness :
    ∃ fs, shareJVal 1 2 3 (b64encode [5]) = .jobj fs
      ∧ truthy (getField fs keyThreshold) = true
      ∧ truthy (getField fs keyIndex) = true ∧ truthy (getField fs keyData) = true :=
  C10_parse_total_and_truthy.1 (.jstr (encodeShare ⟨1, 2, 3, [5]⟩)) _ (by rfl)

theorem scanWords_append (a : List (List Char)) :
    ∀ b ws ds, scanWords ws ds (a ++ b)
      = scanWords (scanWords ws ds a).1 (scanWords ws ds a).2 b := by
  induction a with
  | nil => intro b ws ds; rfl
  | cons w rest ih =>
    intro b ws ds
    simp only [List.cons_append, scanWords]
    split
    · exact ih b _ _
    · exact ih b _ _

theorem scanWords_wordSet_mono {x : List Char} (l : List (List Char)) :
    ∀ ws ds, x ∈ ws → x ∈ (scanWords ws ds l).1 := by
  induction l with
  | nil => intro ws ds h; exact h
  | cons w rest ih =>
    intro ws ds h
    simp only [scanWords]
    split
    · exact ih _ _ h
    · exact ih _ _ (List.mem_append.mpr (.inl h))

theorem scanWords_mem_wordSet {w : List Char} (l : List (List Char)) (hw : w ∈ l) :
    ∀ ws ds, normalizeWord w ∈ (scanWords ws ds l).1 := by
  induction l with
  | nil => cases hw
  | cons a rest ih =>
    intro ws ds
    rcases List.mem_cons.mp hw with rfl | h
    · simp only [scanWords]
      split
      · next hin => exact scanWords_wordSet_mono rest _ _ hin
      · exact scanWords_wordSet_mono rest _ _ (List.mem_append.mpr (.inr (by simp)))
    · simp only [scanWords]
      split
      · exact ih h _ _
      · exact ih h _ _

theorem scanWords_dups_mono (l : List (List Char)) :
    ∀ ws ds, ds ≠ [] → (scanWords ws ds l).2 ≠ [] := by
  induction l with
  | nil => intro ws ds h; exact h
  | cons w rest ih =>
    intro ws ds h
    simp only [scanWords]
    split
    · apply ih
      split
      · exact h
      · simp
    · exact ih _ _ h

/-- A repeated (normalized) word forces a nonempty `duplicates` set. -/
theorem scanWords_dup_nonempty {w w2 : List Char} (hnorm : normalizeWord w = normalizeWord w2)
    (l1 l2 l3 : List (List Char)) :
    (scanWords [] [] (l1 ++ w :: (l2 ++ w2 :: l3))).2 ≠ [] := by
  rw [show l1 ++ w :: (l2 ++ w2 :: l3) = (l1 ++ w :: l2) ++ w2 :: l3 by simp,
    scanWords_append]
  set p := scanWords [] [] (l1 ++ w :: l2) with hp
  have hmem : normalizeWord w ∈ p.1 :=
    scanWords_mem_wordSet _ (by simp) [] []
  rw [hnorm] at hmem
  simp only [scanWords, if_pos hmem]
  apply scanWords_dups_mono
  split
  · next hin => intro hnil; rw [hnil] at hin; cases hin
  · simp

/-- C9 (amended): (a) invalid words (an empty word, or a duplicated word)
make generation fail before the opaque `split` is consulted — the outcome is
`failure` for every `split`; (b) an empty word makes the words invalid; (c)
a duplicated word makes the words invalid; (d) with valid words, generation
succeeds and token `i` is exactly the encoding of the ShardRecord
`{ordinalIndex := i+1, threshold, totalCount, payload := share i}`; (e) the
UI threshold options are exactly `2 ≤ t ≤ totalShares`.  The numeric bounds
`2 ≤ threshold ≤ totalCount ≤ 7` are NOT enforced by `generateShares`
itself (see the counterexample). -/
theorem C9_generation (words : List (List Char)) (totalShares threshold : Nat) :
    ((validateMnemonic words).1 = false →
      ∀ split : List Nat → Nat → Nat → List (List Nat),
        generateShares split words totalShares threshold = .failure)
    ∧ ((∃ w ∈ words, (trimStr w).isEmpty = true) → (validateMnemonic words).1 = false)
    ∧ (∀ w w2 l1 l2 l3, normalizeWord w = normalizeWord w2 →
        words = l1 ++ w :: (l2 ++ w2 :: l3) → (validateMnemonic words).1 = false)
    ∧ ((validateMnemonic words).1 = true →
      ∀ split : List Nat → Nat → Nat → List (List Nat),
        generateShares split words totalShares threshold
          = .success (((split (utf8Encode (joinWords words)) totalShares threshold).mapIdx
              fun index share =>
                encodeShare ⟨index + 1, threshold, totalShares, share⟩)))
    ∧ (∀ x, x ∈ updateThresholdOptions totalShares ↔ 2 ≤ x ∧ x ≤ totalShares) := by
  refine ⟨?_, ?_, ?_, ?_, ?_⟩
  · intro hinv split
    simp [generateShares, hinv]
  · intro ⟨w, hw, hemp⟩
    simp only [validateMnemonic]
    rw [if_pos (List.any_eq_true.mpr ⟨w, hw, hemp⟩)]
    rfl
  · intro w w2 l1 l2 l3 hnorm hsplit
    subst hsplit
    simp only [validateMnemonic]
    have hd := scanWords_dup_nonempty hnorm l1 l2 l3
    rcases hh : (scanWords [] [] (l1 ++ w :: (l2 ++ w2 :: l3))).2 with _ | ⟨d, ds⟩
    · exact absurd hh hd
    · simp
  · intro hval split
    simp [generateShares, hval, encodeShare]
  · intro x
    unfold updateThresholdOptions
    rw [List.mem_range'_1]
    omega

/-- C9 witness: two distinct nonempty words generate; a batch with a
duplicate word is rejected. -/
theorem C9_generation_witness :
    generateShares (fun _ n _ => List.replicate n [1]) [['a'], ['b']] 3 2
      = .success (((List.replicate 3 ([1] : List Nat)).mapIdx
          fun index share => encodeShare ⟨index + 1, 2, 3, share⟩))
    ∧ (validateMnemonic [['a'], ['a']]).1 = false := by
  constructor
  · exact (C9_generation [['a'], ['b']] 3 2).2.2.2.1 (by rfl) (fun _ n _ => List.replicate n [1])
  · exact (C9_generation [['a'], ['a']] 0 0).2.2.1 ['a'] ['a'] [] [] [] rfl rfl

/-- C9 counterexample: `generateShares` succeeds with `totalCount = 8 > 7`
(and even with an empty word list, i.e. an empty secret), so the numeric
precondition `2 ≤ threshold ≤ totalCount ≤ 7` and the non-empty-secret
requirement are not enforced by generation; they come only from the UI
option lists. -/
theorem C9_no_bound_check_counterexample :
    generateShares (fun _ n _ => List.replicate n [1]) [['a'], ['b']] 8 3
      = .success (((List.replicate 8 ([1] : List Nat)).mapIdx
          fun index share => encodeShare ⟨index + 1, 3, 8, share⟩))
    ∧ (validateMnemonic []).1 = true := by
  exact ⟨by rfl, rfl⟩

theorem decryptLoop_prompts_bound (decrypt : List Char → List Char → DecResult)
    (shares : List (List Char)) :
    ∀ pw prompts acc acc2 ps2,
      decryptLoop decrypt shares pw prompts acc = .done acc2 ps2 →
      prompts.length ≤ ps2.length + shares.length := by
  induction shares with
  | nil =>
    intro pw prompts acc acc2 ps2 h
    simp only [decryptLoop, LoopRes.done.injEq] at h
    simp [h.2]
  | cons s rest ih =>
    intro pw prompts acc acc2 ps2 h
    simp only [decryptLoop] at h
    split at h
    all_goals try split at h
    all_goals try split at h
    all_goals try split at h
    all_goals
      first
      | cases h
      | (have hb := ih _ _ _ _ _ h
         simp only [List.length_cons, List.length_nil] at hb ⊢
         omega)

/-- C8 (amended): (a) cancelling (or never answering) the initial password
prompt aborts the attempt with the PasswordRequired-class error; (b) the
retry budget is finite and explicit — a run that completes consumes at most
one prompt per encrypted input beyond the initial one, and it never loops;
(c) a second wrong password on the same input aborts the whole attempt with
the invalid-password error; (d) cancelling a RETRY prompt, however, does not
abort: the rejection message is not recognized as a wrong password, so the
loop continues with the remaining inputs and the old password (see the
counterexample, where such a run still recovers a secret). -/
theorem C8_password_retry_protocol (decrypt : List Char → List Char → DecResult)
    (combine : List (List Nat) → List Nat) (shares : List (List Char)) :
    (∀ ps, recoverEncryptedModel decrypt combine (.cancel :: ps) shares
        = .errPasswordRequired)
    ∧ (recoverEncryptedModel decrypt combine [] shares = .errPasswordRequired)
    ∧ (∀ pw prompts acc acc2 ps2,
        decryptLoop decrypt shares pw prompts acc = .done acc2 ps2 →
        prompts.length ≤ ps2.length + shares.length)
    ∧ (∀ s rest pw p2 ps, shares = s :: rest →
        decrypt s pw = .wrongPassword → decrypt s p2 = .wrongPassword →
        recoverEncryptedModel decrypt combine (.submit pw :: .submit p2 :: ps) shares
          = .errInvalidPassword)
    ∧ (∀ s rest pw ps acc, decrypt s pw = .wrongPassword →
        decryptLoop decrypt (s :: rest) pw (.cancel :: ps) acc
          = decryptLoop decrypt rest pw ps acc) := by
  refine ⟨fun ps => rfl, rfl, decryptLoop_prompts_bound decrypt shares, ?_, ?_⟩
  · intro s rest pw p2 ps hsh h1 h2
    subst hsh
    simp only [recoverEncryptedModel, decryptLoop, h1, h2]
  · intro s rest pw ps acc h1
    simp only [decryptLoop, h1]

/-- C8 witness: a share that is always wrong-password aborts with the
invalid-password error after the single retry. -/
theorem C8_password_retry_protocol_witness :
    recoverEncryptedModel (fun _ _ => .wrongPassword) (fun ps => ps.flatten)
      [.submit ['p'], .submit ['q']] [['x']] = .errInvalidPassword :=
  (C8_password_retry_protocol (fun _ _ => .wrongPassword) (fun ps => ps.flatten)
    [['x']]).2.2.2.1 ['x'] [] ['p'] ['q'] [] rfl rfl rfl

/-- C8 counterexample: the user cancels the RETRY prompt after a wrong
password on the first encrypted input; the claim says cancellation aborts
with a PasswordRequired-class error, but the run continues with the second
input and returns a reconstructed secret. -/
theorem C8_retry_cancel_counterexample :
    recoverEncryptedModel
      (fun s _ => if s = ['x'] then .wrongPassword
        else .success (encodeShare ⟨1, 1, 2, [5]⟩))
      (fun ps => ps.flatten)
      [.submit ['p'], .cancel]
      [['x'], ['y']]
      = .recovered [5] := by rfl

end MnemonicShards
